import Mathlib

/-!
Shallow embedding, in Lean 4, of the hash-dictionary core (`src/dict.c`),
the allocator accounting (`src/zmalloc.c`, first part) and the background
job queue (`src/zmalloc.c`, second part, the bio.c implementation) of the
annotated redis-5.0.5 repository.

Conventions of the embedding:
* C pointers to `dictEntry` chains become `List Entry`; a `NULL` table is
  the empty list `[]`.
* machine integers (`unsigned long`, `uint64_t`, `size_t`) become `Nat`;
  wrap-around is written explicitly (`&&& MASK64`, `% 2 ^ 64`) at the
  places where the C type forces it.  `rehashidx` is a C `long` holding
  `-1` or a bucket index, so it becomes `Int`.
* the `dictType` callback record keeps the two callbacks the algorithms
  consult: the hash function and the key comparator
  (`dictCompareKeys`, which already folds in the NULL-comparator default).
* fallible operations return their C status code (`DICT_OK` / `DICT_ERR`)
  paired with the updated dictionary, since the C functions mutate
  `*d` in place.
-/

set_option maxHeartbeats 1600000

namespace Redis

/-- One key/value node of a bucket chain (`dictEntry` of dict.h; the
`next` pointer is represented by the tail of the containing list). -/
structure Entry where
  key : Nat
  val : Nat
deriving DecidableEq, Repr

/-- The callbacks of `dictType` that dict.c's algorithms consult.
`keyCompare` models the `dictCompareKeys` macro result (which defaults to
pointer equality when the type has no comparator). -/
structure dictType where
  hashFunction : Nat → Nat
  keyCompare : Nat → Nat → Bool

/-- One hash table (`dictht` of dict.h). -/
structure dictht where
  table : List (List Entry)
  size : Nat
  sizemask : Nat
  used : Nat
deriving Repr

/-- The dictionary (`dict` of dict.h): two tables, the rehash cursor
(-1 when no rehash is in progress) and the safe-iterator counter. -/
structure dict where
  type : dictType
  ht0 : dictht
  ht1 : dictht
  rehashidx : Int
  iterators : Nat

def DICT_OK : Nat := 0

def DICT_ERR : Nat := 1

def DICT_HT_INITIAL_SIZE : Nat := 4

/-- `LONG_MAX` on the LP64 platforms the code targets. -/
def LONG_MAX : Nat := 2 ^ 63 - 1

/-- All-ones 64-bit word; `x &&& MASK64` is the `uint64_t` truncation. -/
def MASK64 : Nat := 2 ^ 64 - 1

/-- `dictHashKey`: the hash callback returns a `uint64_t`, hence the
explicit 64-bit truncation of the modelled `Nat → Nat` callback. -/
def hashKey (t : dictType) (key : Nat) : Nat :=
  t.hashFunction key &&& MASK64

def dictHashKey (d : dict) (key : Nat) : Nat :=
  hashKey d.type key

/-- `dictIsRehashing(d)`: `d->rehashidx != -1`. -/
def dictIsRehashing (d : dict) : Bool :=
  d.rehashidx != -1

/-- `dictSize(d)`: `ht[0].used + ht[1].used`. -/
def dictSize (d : dict) : Nat :=
  d.ht0.used + d.ht1.used

/-- `_dictReset`: a zeroed `dictht` (NULL table). -/
def emptyHt : dictht :=
  { table := [], size := 0, sizemask := 0, used := 0 }

/-- `dictCreate` / `_dictInit`. -/
def dictCreate (t : dictType) : dict :=
  { type := t, ht0 := emptyHt, ht1 := emptyHt, rehashidx := -1, iterators := 0 }

/-- The bucket chain at index `i` (out-of-range reads yield the empty
chain, matching a NULL head). -/
def bucket (ht : dictht) (i : Nat) : List Entry :=
  ht.table.getD i []

/-- The doubling loop of `_dictNextPower`: starting from `i`, double
until `i >= size`.  The structural fuel only makes the recursion total;
the C caller enters with `i = 4` and `size < LONG_MAX`, for which 64
rounds always suffice (`nextPowerLoop_pow` below recovers the exact
closed form, fuel-independently). -/
def nextPowerLoop (size : Nat) : Nat → Nat → Nat
  | 0, i => i
  | fuel + 1, i => if size ≤ i then i else nextPowerLoop size fuel (i * 2)

/-- `_dictNextPower`. -/
def _dictNextPower (size : Nat) : Nat :=
  if LONG_MAX ≤ size then LONG_MAX + 1
  else nextPowerLoop size 64 DICT_HT_INITIAL_SIZE

/-- `dictExpand`.  Returns the status code and the updated dictionary. -/
def dictExpand (d : dict) (size : Nat) : Nat × dict :=
  if dictIsRehashing d ∨ d.ht0.used > size then (DICT_ERR, d)
  else
    let realsize := _dictNextPower size
    if realsize = d.ht0.size then (DICT_ERR, d)
    else
      let n : dictht :=
        { table := List.replicate realsize [], size := realsize,
          sizemask := realsize - 1, used := 0 }
      if d.ht0.table = [] then (DICT_OK, { d with ht0 := n })
      else (DICT_OK, { d with ht1 := n, rehashidx := 0 })

/-- The empty-bucket skipping loop at the head of each `dictRehash` step.
Returns the new cursor, the remaining empty-visit budget, and whether a
non-empty bucket was found (`false` = budget exhausted, the C `return 1`).
The cursor increment happens before the `--empty_visits == 0` test,
exactly as in the C loop. -/
def skipEmpty (tbl : List (List Entry)) (idx : Nat) (ev : Nat) : Nat × Nat × Bool :=
  if tbl.getD idx [] ≠ [] then (idx, ev, true)
  else
    match ev with
    | 0 => (idx + 1, 0, false)
    | 1 => (idx + 1, 0, false)
    | ev' + 2 => skipEmpty tbl (idx + 1) (ev' + 1)

/-- The body of the chain-migration loop of `dictRehash`: compute
`h = dictHashKey(d, de->key) & ht->sizemask`, prepend the entry to the
bucket chain at `h`, bump `used`. -/
def putBucket (t : dictType) (ht : dictht) (e : Entry) : dictht :=
  let h := hashKey t e.key &&& ht.sizemask
  { ht with table := ht.table.set h (e :: ht.table.getD h []),
            used := ht.used + 1 }

/-- The chain-migration loop of `dictRehash`: every entry of the bucket
being rehashed is moved, in chain order, into its `ht[1]` bucket. -/
def moveChain (t : dictType) (ht : dictht) : List Entry → dictht
  | [] => ht
  | e :: rest => moveChain t (putBucket t ht e) rest

/-- Ghost counters for `dictRehash`: how many empty buckets were probed
and how many non-empty buckets were migrated by one call. -/
structure RehashStats where
  emptyProbes : Nat
  migrated : Nat
deriving Repr, DecidableEq

/-- The tail of `dictRehash`: if `ht[0]` has drained, free its array,
promote `ht[1]`, reset the cursor and report completion (`0`), else
report more work (`1`). -/
def finishRehash (d : dict) : dict × Nat :=
  if d.ht0.used = 0 then
    ({ d with ht0 := d.ht1, ht1 := emptyHt, rehashidx := -1 }, 0)
  else (d, 1)

/-- The `while(n-- && d->ht[0].used != 0)` loop of `dictRehash`, with the
ghost `RehashStats` accumulator threaded through.  `ev` is the shared
`empty_visits` budget. -/
def rehashLoop (d : dict) (n ev : Nat) (st : RehashStats) :
    (dict × Nat) × RehashStats :=
  match n with
  | 0 => (finishRehash d, st)
  | n + 1 =>
    if d.ht0.used = 0 then (finishRehash d, st)
    else
      let r := skipEmpty d.ht0.table d.rehashidx.toNat ev
      let st' : RehashStats :=
        { st with emptyProbes := st.emptyProbes + (r.1 - d.rehashidx.toNat) }
      if r.2.2 = false then
        (({ d with rehashidx := (r.1 : Int) }, 1), st')
      else
        let idx := r.1
        let chain := d.ht0.table.getD idx []
        let ht1' := moveChain d.type d.ht1 chain
        let ht0' : dictht :=
          { d.ht0 with table := d.ht0.table.set idx [],
                       used := d.ht0.used - chain.length }
        let d' : dict :=
          { d with ht0 := ht0', ht1 := ht1', rehashidx := (idx : Int) + 1 }
        rehashLoop d' n r.2.1 { st' with migrated := st'.migrated + 1 }

/-- `dictRehash(d, n)` with its ghost counters.  The result code is `1`
when keys remain to be moved, `0` when the rehash is (or was) complete. -/
def dictRehashC (d : dict) (n : Nat) : (dict × Nat) × RehashStats :=
  if dictIsRehashing d = false then ((d, 0), ⟨0, 0⟩)
  else rehashLoop d n (n * 10) ⟨0, 0⟩

/-- `dictRehash(d, n)` (code-visible result only). -/
def dictRehash (d : dict) (n : Nat) : dict × Nat :=
  (dictRehashC d n).1

/-- `_dictRehashStep`: a single rehash step, suppressed while safe
iterators are live. -/
def _dictRehashStep (d : dict) : dict :=
  if d.iterators = 0 then (dictRehash d 1).1 else d

/-- The global `dict_can_resize` flag at its default value (the claims
under study never toggle it). -/
def dict_can_resize : Bool := true

/-- `_dictExpandIfNeeded` (the force-resize threshold
`dict_force_resize_ratio` is the literal 5). -/
def _dictExpandIfNeeded (d : dict) : Nat × dict :=
  if dictIsRehashing d then (DICT_OK, d)
  else if d.ht0.size = 0 then dictExpand d DICT_HT_INITIAL_SIZE
  else if d.ht0.used ≥ d.ht0.size ∧
          (dict_can_resize = true ∨ d.ht0.used / d.ht0.size > 5) then
    dictExpand d (d.ht0.used * 2)
  else (DICT_OK, d)

/-- Chain search with the composite test
`key == he->key || dictCompareKeys(d, key, he->key)`. -/
def findMatch (t : dictType) (key : Nat) (chain : List Entry) : Option Entry :=
  chain.find? (fun he => key == he.key || t.keyCompare key he.key)

/-- `_dictKeyIndex`: returns the insertion index (or `-1` with the
existing entry when the key is present), together with the dictionary as
mutated by `_dictExpandIfNeeded`. -/
def _dictKeyIndex (d : dict) (key hash : Nat) : Int × Option Entry × dict :=
  let r := _dictExpandIfNeeded d
  if r.1 = DICT_ERR then (-1, none, r.2)
  else
    let d' := r.2
    let idx0 := hash &&& d'.ht0.sizemask
    match findMatch d'.type key (d'.ht0.table.getD idx0 []) with
    | some he => (-1, some he, d')
    | none =>
      if dictIsRehashing d' then
        let idx1 := hash &&& d'.ht1.sizemask
        match findMatch d'.type key (d'.ht1.table.getD idx1 []) with
        | some he => (-1, some he, d')
        | none => ((idx1 : Int), none, d')
      else ((idx0 : Int), none, d')

/-- `dictAddRaw`, fused with the caller's `dictSetVal`: the C function
creates the entry with only its key set and the caller stores the value
right after, so the model creates `⟨key, val⟩` directly.  Returns the new
entry (`none` when the key already exists), the existing entry in that
case, and the updated dictionary. -/
def dictAddRaw (d : dict) (key val : Nat) : Option Entry × Option Entry × dict :=
  let d := if dictIsRehashing d then _dictRehashStep d else d
  let r := _dictKeyIndex d key (dictHashKey d key)
  let d' := r.2.2
  if r.1 = -1 then (none, r.2.1, d')
  else
    let index := r.1.toNat
    let entry : Entry := { key := key, val := val }
    if dictIsRehashing d' then
      let ht := d'.ht1
      (some entry, r.2.1,
        { d' with ht1 :=
          { ht with table := ht.table.set index (entry :: ht.table.getD index []),
                    used := ht.used + 1 } })
    else
      let ht := d'.ht0
      (some entry, r.2.1,
        { d' with ht0 :=
          { ht with table := ht.table.set index (entry :: ht.table.getD index []),
                    used := ht.used + 1 } })

/-- `dictAdd`. -/
def dictAdd (d : dict) (key val : Nat) : Nat × dict :=
  let r := dictAddRaw d key val
  match r.1 with
  | none => (DICT_ERR, r.2.2)
  | some _ => (DICT_OK, r.2.2)

/-- In-place value update of the first matching entry of a chain
(the effect of `dictSetVal(d, existing, val)` through the pointer
returned by `_dictKeyIndex`). -/
def replaceInChain (t : dictType) (key val : Nat) :
    List Entry → List Entry × Bool
  | [] => ([], false)
  | he :: rest =>
    if key == he.key || t.keyCompare key he.key then
      ({ he with val := val } :: rest, true)
    else
      let r := replaceInChain t key val rest
      (he :: r.1, r.2)

/-- Locates the entry `_dictKeyIndex` reported as existing (first match
in the `ht[0]` bucket, else in the `ht[1]` bucket) and overwrites its
value. -/
def dictSetExistingVal (d : dict) (key val : Nat) : dict :=
  let idx0 := dictHashKey d key &&& d.ht0.sizemask
  let r0 := replaceInChain d.type key val (d.ht0.table.getD idx0 [])
  if r0.2 then
    { d with ht0 := { d.ht0 with table := d.ht0.table.set idx0 r0.1 } }
  else
    let idx1 := dictHashKey d key &&& d.ht1.sizemask
    let r1 := replaceInChain d.type key val (d.ht1.table.getD idx1 [])
    { d with ht1 := { d.ht1 with table := d.ht1.table.set idx1 r1.1 } }

/-- `dictReplace`: returns `1` when the key was added, `0` when an
existing entry's value was overwritten. -/
def dictReplace (d : dict) (key val : Nat) : Nat × dict :=
  let r := dictAddRaw d key val
  match r.1 with
  | some _ => (1, r.2.2)
  | none => (0, dictSetExistingVal r.2.2 key val)

/-- Removal of the first matching entry from a chain; `none` when no
entry matches. -/
def removeFromChain (t : dictType) (key : Nat) :
    List Entry → Option (Entry × List Entry)
  | [] => none
  | he :: rest =>
    if key == he.key || t.keyCompare key he.key then some (he, rest)
    else
      match removeFromChain t key rest with
      | none => none
      | some r => some (r.1, he :: r.2)

/-- `dictGenericDelete` (the `nofree` flag only controls destructor
callbacks, which the model has no use for). -/
def dictGenericDelete (d : dict) (key : Nat) : Option Entry × dict :=
  if d.ht0.used = 0 ∧ d.ht1.used = 0 then (none, d)
  else
    let d := if dictIsRehashing d then _dictRehashStep d else d
    let h := dictHashKey d key
    let idx0 := h &&& d.ht0.sizemask
    match removeFromChain d.type key (d.ht0.table.getD idx0 []) with
    | some r =>
      (some r.1,
        { d with ht0 := { d.ht0 with table := d.ht0.table.set idx0 r.2,
                                     used := d.ht0.used - 1 } })
    | none =>
      if dictIsRehashing d then
        let idx1 := h &&& d.ht1.sizemask
        match removeFromChain d.type key (d.ht1.table.getD idx1 []) with
        | some r =>
          (some r.1,
            { d with ht1 := { d.ht1 with table := d.ht1.table.set idx1 r.2,
                                         used := d.ht1.used - 1 } })
        | none => (none, d)
      else (none, d)

/-- `dictDelete`. -/
def dictDelete (d : dict) (key : Nat) : Nat × dict :=
  let r := dictGenericDelete d key
  (if r.1.isSome then DICT_OK else DICT_ERR, r.2)

/-- `dictFind`. -/
def dictFind (d : dict) (key : Nat) : Option Entry × dict :=
  if d.ht0.used + d.ht1.used = 0 then (none, d)
  else
    let d := if dictIsRehashing d then _dictRehashStep d else d
    let h := dictHashKey d key
    match findMatch d.type key (d.ht0.table.getD (h &&& d.ht0.sizemask) []) with
    | some he => (some he, d)
    | none =>
      if dictIsRehashing d then
        (findMatch d.type key (d.ht1.table.getD (h &&& d.ht1.sizemask) []), d)
      else (none, d)

/-- The bit-reversal function `rev` of dict.c (Stanford bit hack): six
block-swap rounds with shrinking span `s = 32, 16, 8, 4, 2, 1` and the
evolving mask, all on `unsigned long` (64-bit) words. -/
def revStep (s : Nat) (p : Nat × Nat) : Nat × Nat :=
  let mask := p.1 ^^^ ((p.1 <<< s) &&& MASK64)
  let v := ((p.2 >>> s) &&& mask) ||| ((p.2 <<< s) &&& MASK64 &&& (MASK64 ^^^ mask))
  (mask, v)

def rev (v : Nat) : Nat :=
  ([32, 16, 8, 4, 2, 1].foldl (fun p s => revStep s p) (MASK64, v &&& MASK64)).2

/-- The reverse-cursor increment shared by both branches of `dictScan`:
`v |= ~m; v = rev(v); v++; v = rev(v);` on 64-bit words. -/
def scanStep (v m : Nat) : Nat :=
  rev ((rev (v ||| (MASK64 ^^^ m)) + 1) &&& MASK64)

/-- The `do { ... } while (v & (m0 ^ m1))` loop of the rehashing branch
of `dictScan`: emit the larger-table bucket at `v & m1`, advance the
reverse cursor at the larger mask, repeat while the mask-difference bits
are non-zero.  The C loop always terminates within `t1.size` rounds on a
well-formed dictionary; the fuel only makes the recursion total. -/
def scanExpansions (t1 : dictht) (m0 m1 : Nat) :
    Nat → Nat → List Entry → List Entry × Nat
  | 0, v, acc => (acc, v)
  | fuel + 1, v, acc =>
    let acc := acc ++ t1.table.getD (v &&& m1) []
    let v := scanStep v m1
    if v &&& (m0 ^^^ m1) ≠ 0 then scanExpansions t1 m0 m1 fuel v acc
    else (acc, v)

/-- `dictScan(d, v, fn, NULL, privdata)`, with the visitor callback
modelled as collecting the visited entries in call order.  Returns the
emitted entries and the next cursor. -/
def dictScan (d : dict) (v : Nat) : List Entry × Nat :=
  if dictSize d = 0 then ([], 0)
  else if dictIsRehashing d = false then
    let t0 := d.ht0
    let m0 := t0.sizemask
    (t0.table.getD (v &&& m0) [], scanStep v m0)
  else
    let p := if d.ht0.size > d.ht1.size then (d.ht1, d.ht0) else (d.ht0, d.ht1)
    let t0 := p.1
    let t1 := p.2
    let m0 := t0.sizemask
    let m1 := t1.sizemask
    let acc := t0.table.getD (v &&& m0) []
    scanExpansions t1 m0 m1 t1.size v acc

/-- Iterator state (`dictIterator`); `entry` holds the current node as
the head of the remaining chain, `nextEntry` the saved `entry->next`
chain.  The fingerprint of unsafe iterators hashes raw table pointers and
is not representable; the claims under study concern safe iterators. -/
structure dictIterator where
  table : Nat
  index : Int
  safe : Bool
  entry : List Entry
  nextEntry : List Entry

/-- `dictGetIterator`. -/
def dictGetIterator : dictIterator :=
  { table := 0, index := -1, safe := false, entry := [], nextEntry := [] }

/-- `dictGetSafeIterator`: note that it merely flags the iterator; the
dictionary's counter is untouched until the first `dictNext`. -/
def dictGetSafeIterator : dictIterator :=
  { dictGetIterator with safe := true }

/-- The `while(1)` loop of `dictNext`.  Each recursive round corresponds
to one C loop iteration that did not return; the fuel is bounded by the
bucket count plus two, which the wrapper supplies. -/
def dictNextLoop : Nat → dict → dictIterator →
    Option Entry × dict × dictIterator
  | 0, d, iter => (none, d, iter)
  | fuel + 1, d, iter =>
    if iter.entry = [] then
      let d1 :=
        if iter.index = -1 ∧ iter.table = 0 ∧ iter.safe then
          { d with iterators := d.iterators + 1 }
        else d
      let idx := iter.index + 1
      let ht := if iter.table = 0 then d1.ht0 else d1.ht1
      if (ht.size : Int) ≤ idx then
        if dictIsRehashing d1 ∧ iter.table = 0 then
          let chain := d1.ht1.table.getD 0 []
          match chain with
          | [] =>
            dictNextLoop fuel d1
              { iter with table := 1, index := 0, entry := [] }
          | e :: rest =>
            (some e, d1,
              { iter with table := 1, index := 0, entry := chain, nextEntry := rest })
        else (none, d1, { iter with index := idx })
      else
        let chain := ht.table.getD idx.toNat []
        match chain with
        | [] => dictNextLoop fuel d1 { iter with index := idx, entry := [] }
        | e :: rest =>
          (some e, d1, { iter with index := idx, entry := chain, nextEntry := rest })
    else
      match iter.nextEntry with
      | [] => dictNextLoop fuel d { iter with entry := [] }
      | e :: rest =>
        (some e, d, { iter with entry := iter.nextEntry, nextEntry := rest })

/-- `dictNext`. -/
def dictNext (d : dict) (iter : dictIterator) :
    Option Entry × dict × dictIterator :=
  dictNextLoop (d.ht0.size + d.ht1.size + 2) d iter

/-- `dictReleaseIterator`: a started safe iterator decrements the
counter (an unsafe one re-checks its fingerprint, a fatal assertion that
the model does not represent). -/
def dictReleaseIterator (d : dict) (iter : dictIterator) : dict :=
  if ¬ (iter.index = -1 ∧ iter.table = 0) ∧ iter.safe then
    { d with iterators := d.iterators - 1 }
  else d

/-- The dictionary operations that drive the invariant claims: expand,
insert, replace, remove, lookup (which piggybacks a rehash step) and
explicit rehash steps. -/
inductive Op where
  | expand (size : Nat)
  | add (key val : Nat)
  | replace (key val : Nat)
  | delete (key : Nat)
  | find (key : Nat)
  | rehash (n : Nat)

def applyOp (d : dict) (op : Op) : dict :=
  match op with
  | .expand size => (dictExpand d size).2
  | .add k v => (dictAdd d k v).2
  | .replace k v => (dictReplace d k v).2
  | .delete k => (dictDelete d k).2
  | .find k => (dictFind d k).2
  | .rehash n => (dictRehash d n).1

/-- A dictionary built from `dictCreate` by a sequence of operations. -/
def runOps (t : dictType) (ops : List Op) : dict :=
  ops.foldl applyOp (dictCreate t)

/-- Total number of entries reachable from the bucket heads of one
table. -/
def htCount (ht : dictht) : Nat :=
  (ht.table.map List.length).sum

/-- The number of entries logically in the dictionary: all entries
reachable from either table's bucket heads. -/
def entryCount (d : dict) : Nat :=
  htCount d.ht0 + htCount d.ht1

/-- All entries of the dictionary, as one list. -/
def allEntries (d : dict) : List Entry :=
  d.ht0.table.flatten ++ d.ht1.table.flatten

/-- A key is present when some entry carries it. -/
def presentKey (d : dict) (key : Nat) : Prop :=
  ∃ e ∈ allEntries d, e.key = key

/-- The states (dictionary, cursor) at each `dictScan` call of a
traversal: between consecutive calls the dictionary evolves by the given
operation batch, and the cursor is the one the previous call returned. -/
def scanStates : dict → Nat → List (List Op) → List (dict × Nat)
  | d, v, [] => [(d, v)]
  | d, v, ops :: rest =>
    (d, v) :: scanStates (ops.foldl applyOp d) (dictScan d v).2 rest

/-! ### Allocator accounting (`zmalloc.c`, generic-libc branch)

`PREFIX_SIZE = sizeof(size_t) = 8` on the LP64 platforms the repository
targets; the allocation header stores the requested size. -/

def sizeof_long : Nat := 8

def PREFIX_SIZE : Nat := 8

/-- `update_zmalloc_stat_alloc(__n)`: the macro computes a word-aligned
`_n` but then executes `atomicIncr(used_memory, __n)` on the *unrounded*
argument, so `_n` is dead.  The model preserves exactly that. -/
def update_zmalloc_stat_alloc (used n : Nat) : Nat :=
  let _n := if n &&& (sizeof_long - 1) ≠ 0
            then n + (sizeof_long - (n &&& (sizeof_long - 1))) else n
  used + n

/-- `update_zmalloc_stat_free(__n)`: same dead rounding, then
`atomicDecr(used_memory, __n)`. -/
def update_zmalloc_stat_free (used n : Nat) : Nat :=
  let _n := if n &&& (sizeof_long - 1) ≠ 0
            then n + (sizeof_long - (n &&& (sizeof_long - 1))) else n
  used - n

/-- An allocated block: the header records the requested size
(`*((size_t*)ptr) = size`). -/
structure Block where
  size : Nat
deriving DecidableEq, Repr

/-- `zmalloc(size)` acting on the `used_memory` counter: returns the
block and the new counter (`update_zmalloc_stat_alloc(size+PREFIX_SIZE)`). -/
def zmalloc (used size : Nat) : Block × Nat :=
  ({ size := size }, update_zmalloc_stat_alloc used (size + PREFIX_SIZE))

/-- `zfree(ptr)` acting on the counter: reads the header size and
executes `update_zmalloc_stat_free(oldsize+PREFIX_SIZE)`. -/
def zfree (used : Nat) (b : Block) : Nat :=
  update_zmalloc_stat_free used (b.size + PREFIX_SIZE)

/-- `zmalloc_used_memory()`: an atomic read of the counter. -/
def zmalloc_used_memory (used : Nat) : Nat := used

/-- Modelled from the spec: the word-aligned update size the spec (and
the macro's own dead local `_n`) prescribes — the size rounded up to the
next multiple of `sizeof(long)`. -/
def roundUpToLong (n : Nat) : Nat :=
  if n &&& (sizeof_long - 1) ≠ 0
  then n + (sizeof_long - (n &&& (sizeof_long - 1))) else n

/-! ### Background job queue (bio.c, one job kind)

The bio.c worker loop and submitter are in the source; the queue they
share is an `adlist.c` list, whose implementation file is absent from the
sources at hand. -/

/-- Modelled from the spec: the per-kind job list with
`listAddNodeTail` appending at the tail (adlist.c is not among the
sources; its tail-append/head-first contract is taken from the spec and
`adlist.h`).  `queue` is `bio_jobs[type]`, `pending` is
`bio_pending[type]`, and `completed` records, in order, the jobs the
worker has finished. -/
structure BioState where
  queue : List Nat
  pending : Nat
  completed : List Nat
deriving DecidableEq, Repr

/-- `bioInit` state for one kind: empty queue, zero pending. -/
def bioInitState : BioState :=
  { queue := [], pending := 0, completed := [] }

/-- `bioCreateBackgroundJob`: append the job at the queue tail and bump
the pending counter (under the kind's mutex). -/
def bioCreateBackgroundJob (s : BioState) (job : Nat) : BioState :=
  { s with queue := s.queue ++ [job], pending := s.pending + 1 }

/-- One round of `bioProcessBackgroundJobs`: take `listFirst`, run it,
then delete the node and decrement pending.  With an empty queue the
worker blocks on the condition variable (state unchanged). -/
def bioStep (s : BioState) : BioState :=
  match s.queue with
  | [] => s
  | j :: rest =>
    { queue := rest, pending := s.pending - 1, completed := s.completed ++ [j] }

/-- Interleaving of submissions (from the request thread) and worker
rounds for one job kind. -/
inductive BioEvent where
  | submit (job : Nat)
  | work

def bioApply (s : BioState) (e : BioEvent) : BioState :=
  match e with
  | .submit j => bioCreateBackgroundJob s j
  | .work => bioStep s

def bioRun (evs : List BioEvent) : BioState :=
  evs.foldl bioApply bioInitState

/-- The jobs submitted by a sequence of events, in submission order. -/
def bioSubmitted (evs : List BioEvent) : List Nat :=
  evs.foldl (fun acc e => match e with | .submit j => acc ++ [j] | .work => acc) []

/-! ### Well-formedness of a dictionary

The structural invariants every dictionary reachable through the API
maintains; `dictWF_runOps` below proves their preservation. -/

/-- Well-formedness of one `dictht` under a type's hash callback: the
array length matches `size`, the mask is `size - 1`, `size` is zero
(unallocated) or a power of two in the range `dictExpand` can produce,
`used` counts the reachable entries, and every entry sits in the bucket
its hash selects. -/
structure htWF (t : dictType) (ht : dictht) : Prop where
  len : ht.table.length = ht.size
  mask : ht.sizemask = ht.size - 1
  pow : ht.size = 0 ∨ ∃ k, 2 ≤ k ∧ k ≤ 63 ∧ ht.size = 2 ^ k
  cnt : ht.used = htCount ht
  place : ∀ i : Nat, ∀ e ∈ ht.table.getD i [], hashKey t e.key &&& ht.sizemask = i

/-- Well-formedness of a dictionary. -/
structure dictWF (d : dict) : Prop where
  wf0 : htWF d.type d.ht0
  wf1 : htWF d.type d.ht1
  idle : d.rehashidx = -1 → d.ht1 = emptyHt
  reh : d.rehashidx ≠ -1 →
    0 ≤ d.rehashidx ∧ d.ht0.size ≠ 0 ∧ d.ht1.size ≠ 0 ∧ d.ht0.size ≠ d.ht1.size

/-- A type whose comparator is plain key equality (the sane hash/compare
contract; the NULL-comparator default of `dictCompareKeys` is exactly
this). -/
def eqCmp (t : dictType) : Prop :=
  ∀ a b : Nat, t.keyCompare a b = (a == b)

/-- Modelled from the spec: "the smallest power of two ≥ the requested
size". -/
def smallestPow2Geq (s : Nat) : Nat :=
  2 ^ Nat.clog 2 s

/-! ### Concrete dictionaries used by witnesses and counterexamples -/

/-- Identity hash, equality comparator. -/
def exType : dictType :=
  { hashFunction := fun k => k, keyCompare := fun a b => a == b }

/-- `{1 ↦ 10, 2 ↦ 20}` in a size-4 table (reached by two inserts). -/
def exDict2 : dict :=
  (dictAdd (dictAdd (dictCreate exType) 1 10).2 2 20).2

/-- `exDict2` with a grow to size 8 started: rehashing, cursor 0. -/
def exDict3 : dict :=
  (dictExpand exDict2 8).2

/-- `exDict3` rehashed to completion: size-8 table, two entries, idle. -/
def exDict8 : dict :=
  (dictRehash exDict3 10).1

/-- The visited-key check used by the scan claims: some entry reachable
from the bucket heads carries the key. -/
def presentKeyB (d : dict) (key : Nat) : Bool :=
  (allEntries d).any (fun e => e.key == key)

/-- Modelled from the spec: the traversal protocol of the scan guarantee —
each `dictScan` call is made with the cursor the previous call returned,
the dictionary may be mutated by arbitrary operations between calls, the
traversal stops exactly when a call returns cursor `0`. -/
def scanCursorOkB : dict → Nat → List (List Op) → Bool
  | d, v, [] => (dictScan d v).2 == 0
  | d, v, ops :: rest =>
    ((dictScan d v).2 != 0)
      && scanCursorOkB (ops.foldl applyOp d) (dictScan d v).2 rest

/-- Modelled from the spec: the key is present in the dictionary at every
call of the traversal ("present for the entire traversal"). -/
def presentAllB : dict → Nat → List (List Op) → Nat → Bool
  | d, _, [], key => presentKeyB d key
  | d, v, ops :: rest, key =>
    presentKeyB d key
      && presentAllB (ops.foldl applyOp d) (dictScan d v).2 rest key

/-- `exDict3` after one `dictNext` of a fresh safe iterator: the
iterator counter has become 1. -/
def exDictIt : dict := (dictNext exDict3 dictGetSafeIterator).2.1

/-- The started safe iterator produced by that first `dictNext`. -/
def exIter : dictIterator := (dictNext exDict3 dictGetSafeIterator).2.2

/-! ## Theorems -/

/-! ### Generic list helpers -/

theorem getD_set_self {α : Type} (l : List (List α)) (i : Nat) (x : List α)
    (h : i < l.length) : (l.set i x).getD i [] = x := by
  rw [List.getD_eq_getElem _ _ (by simpa using h)]
  simp [List.getElem_set_self]

theorem getD_set_ne {α : Type} (l : List (List α)) (i j : Nat) (x : List α)
    (h : i ≠ j) : (l.set i x).getD j [] = l.getD j [] := by
  by_cases hj : j < l.length
  · rw [List.getD_eq_getElem _ _ (by simpa using hj),
        List.getD_eq_getElem _ _ hj]
    exact List.getElem_set_ne h _
  · rw [List.getD_eq_default _ _ (by simpa using Nat.le_of_not_lt hj),
        List.getD_eq_default _ _ (Nat.le_of_not_lt hj)]

theorem sumLen_set {α : Type} (l : List (List α)) (i : Nat) (x : List α)
    (h : i < l.length) :
    ((l.set i x).map List.length).sum + (l.getD i []).length
      = (l.map List.length).sum + x.length := by
  induction l generalizing i with
  | nil => simp at h
  | cons hd tl ih =>
    cases i with
    | zero => simp [List.set]; omega
    | succ i =>
      simp only [List.set, List.map_cons, List.sum_cons, List.getD_cons_succ]
      have := ih i (by simpa using h)
      omega

theorem sumLen_ge {α : Type} (l : List (List α)) (i : Nat) :
    (l.getD i []).length ≤ (l.map List.length).sum := by
  induction l generalizing i with
  | nil => simp
  | cons hd tl ih =>
    cases i with
    | zero => simp
    | succ i =>
      simp only [List.getD_cons_succ, List.map_cons, List.sum_cons]
      have := ih i
      omega

theorem mem_getD_mem_flatten {α : Type} (l : List (List α)) (i : Nat) (a : α)
    (h : a ∈ l.getD i []) : a ∈ l.flatten := by
  induction l generalizing i with
  | nil => simp at h
  | cons hd tl ih =>
    cases i with
    | zero => simp at h; simp [h]
    | succ i =>
      simp only [List.getD_cons_succ] at h
      simp [ih i h]

theorem flatten_set_perm {α : Type} (l : List (List α)) (i : Nat) (x : List α)
    (h : i < l.length) :
    ((l.set i x).flatten ++ l.getD i []).Perm (l.flatten ++ x) := by
  induction l generalizing i with
  | nil => simp at h
  | cons hd tl ih =>
    cases i with
    | zero =>
      simp only [List.set, List.flatten_cons, List.getD_cons_zero]
      refine List.Perm.trans List.perm_append_comm ?_
      rw [List.append_assoc]
      exact List.Perm.append_left hd List.perm_append_comm
    | succ i =>
      simp only [List.set, List.flatten_cons, List.getD_cons_succ,
        List.append_assoc]
      exact List.Perm.append_left hd (ih i (by simpa using h))

/-! ### Allocator claims -/

/-- Claim C10: for every size, calling `zmalloc(size)` and then `zfree`
on the returned pointer leaves `zmalloc_used_memory()` exactly equal to
its value before the pair of calls — the free decrement equals the
allocation increment. -/
theorem claim_C10 (used size : Nat) :
    zmalloc_used_memory (zfree (zmalloc used size).2 (zmalloc used size).1)
      = zmalloc_used_memory used := by
  simp [zmalloc, zfree, zmalloc_used_memory,
    update_zmalloc_stat_alloc, update_zmalloc_stat_free]

/-- Claim C9 (code bug): the claim says every allocation updates the
used-memory counter by the size rounded up to `sizeof(long)` alignment,
and the macro's own dead local `_n` (and the repository's comment on it)
computes exactly that rounding — but the executed increment uses the
unrounded `__n`.  At the failing input `zmalloc(1)` from a zero counter,
the code adds `1 + PREFIX_SIZE = 9` where the claimed update is
`roundUpToLong 9 = 16`. -/
theorem claim_C9 :
    (zmalloc 0 1).2 = 9 ∧
    roundUpToLong (1 + PREFIX_SIZE) = 16 ∧
    (zmalloc 0 1).2 ≠ roundUpToLong (1 + PREFIX_SIZE) := by
  refine ⟨rfl, rfl, ?_⟩
  decide

/-! ### Background-queue claim -/

theorem bioSubmitted_fold (evs : List BioEvent) (l : List Nat) :
    evs.foldl
      (fun acc e => match e with | .submit j => acc ++ [j] | .work => acc) l
    = l ++ evs.foldl
        (fun acc e => match e with | .submit j => acc ++ [j] | .work => acc)
        [] := by
  induction evs generalizing l with
  | nil => simp
  | cons e' rest' ih' =>
    cases e' with
    | submit j =>
      simp only [List.foldl_cons]
      rw [ih' (l ++ [j]), ih' ([] ++ [j])]
      simp
    | work => simp only [List.foldl_cons]; exact ih' l

theorem bioRun_fifo_aux (evs : List BioEvent) (s : BioState) :
    ((evs.foldl bioApply s).completed ++ (evs.foldl bioApply s).queue)
      = s.completed ++ s.queue ++
        evs.foldl
          (fun acc e => match e with | .submit j => acc ++ [j] | .work => acc)
          [] := by
  induction evs generalizing s with
  | nil => simp
  | cons e rest ih =>
    have hacc := bioSubmitted_fold rest
    cases e with
    | submit j =>
      simp only [List.foldl_cons, bioApply]
      rw [ih, hacc ([] ++ [j])]
      simp [bioCreateBackgroundJob]
    | work =>
      simp only [List.foldl_cons, bioApply]
      rw [ih]
      cases hq : s.queue with
      | nil => simp [bioStep, hq]
      | cons j q => simp [bioStep, hq]

/-- Claim C8: for one background job kind, after any interleaving of
submissions and worker rounds, the completed jobs followed by the still
queued jobs reproduce the submission order — the worker removes the
front of the FIFO while submission appends at the tail, so completions
happen in exactly the submission order. -/
theorem claim_C8 (evs : List BioEvent) :
    (bioRun evs).completed ++ (bioRun evs).queue = bioSubmitted evs := by
  have := bioRun_fifo_aux evs bioInitState
  simpa [bioRun, bioSubmitted, bioInitState] using this

/-! ### `_dictNextPower` and the expand claims -/

theorem nextPowerLoop_pow (size : Nat) :
    ∀ fuel a : Nat, size ≤ 2 ^ (a + fuel) →
    nextPowerLoop size fuel (2 ^ a) = 2 ^ max a (Nat.clog 2 size) := by
  intro fuel
  induction fuel with
  | zero =>
    intro a ha
    have hc : Nat.clog 2 size ≤ a := (Nat.le_pow_iff_clog_le one_lt_two).mp (by simpa using ha)
    simp [nextPowerLoop, Nat.max_eq_left hc]
  | succ fuel ih =>
    intro a ha
    by_cases h : size ≤ 2 ^ a
    · have hc : Nat.clog 2 size ≤ a := (Nat.le_pow_iff_clog_le one_lt_two).mp h
      simp [nextPowerLoop, h, Nat.max_eq_left hc]
    · have hc : a + 1 ≤ Nat.clog 2 size := by
        by_contra hcon
        exact h ((Nat.le_pow_iff_clog_le one_lt_two).mpr (by omega))
      have h2 : (2 : Nat) ^ a * 2 = 2 ^ (a + 1) := by ring
      have := ih (a + 1) (by
        have : a + 1 + fuel = a + (fuel + 1) := by omega
        rw [this]; exact ha)
      simp only [nextPowerLoop, if_neg h, h2, this]
      congr 1
      omega

theorem pow_max_eq (a b : Nat) : (2 : Nat) ^ max a b = max (2 ^ a) (2 ^ b) := by
  rcases Nat.le_total a b with h | h
  · rw [Nat.max_eq_right h, Nat.max_eq_right (Nat.pow_le_pow_right (by norm_num) h)]
  · rw [Nat.max_eq_left h, Nat.max_eq_left (Nat.pow_le_pow_right (by norm_num) h)]

/-- Closed form of `_dictNextPower` below `LONG_MAX`: the smallest power
of two ≥ the request, floored at the initial size 4. -/
theorem _dictNextPower_eq (size : Nat) (h : size < LONG_MAX) :
    _dictNextPower size = max DICT_HT_INITIAL_SIZE (smallestPow2Geq size) := by
  have hb : size ≤ 2 ^ (2 + 64) := by
    have : LONG_MAX ≤ 2 ^ 66 := by norm_num [LONG_MAX]
    omega
  have h4 : (4 : Nat) = 2 ^ 2 := by norm_num
  rw [_dictNextPower, if_neg (by omega), DICT_HT_INITIAL_SIZE, h4,
    nextPowerLoop_pow size 64 2 hb, pow_max_eq]
  norm_num [smallestPow2Geq]

/-- `_dictNextPower` always produces a power of two `2^k`, `2 ≤ k ≤ 63`. -/
theorem _dictNextPower_pow (size : Nat) :
    ∃ k, 2 ≤ k ∧ k ≤ 63 ∧ _dictNextPower size = 2 ^ k := by
  by_cases h : LONG_MAX ≤ size
  · refine ⟨63, by norm_num, le_refl _, ?_⟩
    rw [_dictNextPower, if_pos h]
    norm_num [LONG_MAX]
  · have h' : size < LONG_MAX := by omega
    refine ⟨max 2 (Nat.clog 2 size), Nat.le_max_left _ _, ?_, ?_⟩
    · have : Nat.clog 2 size ≤ 63 := by
        refine (Nat.le_pow_iff_clog_le one_lt_two).mp ?_
        have : LONG_MAX ≤ 2 ^ 63 := by norm_num [LONG_MAX]
        omega
      omega
    · rw [_dictNextPower_eq size h', pow_max_eq]
      norm_num [smallestPow2Geq, DICT_HT_INITIAL_SIZE]

/-- Claim C4 counterexample: the claim predicts `err` exactly when
rehashing is in progress or the target is ≤ `used(T0)`.
Input 1 (`exDict2`, a size-4 idle table with 2 entries, target 4): the
code errs (rehash to the same size) although the claim predicts ok.
Input 2 (`exDict8`, a size-8 idle table with 2 entries, target 2 =
`used(T0)`): the code succeeds although the claim predicts err. -/
theorem claim_C4_cex :
    ((dictExpand exDict2 4).1 = DICT_ERR ∧
      dictIsRehashing exDict2 = false ∧ exDict2.ht0.used < 4) ∧
    ((dictExpand exDict8 2).1 = DICT_OK ∧
      dictIsRehashing exDict8 = false ∧ 2 ≤ exDict8.ht0.used) := by
  decide

/-- Claim C4, amended: `dictExpand` returns `DICT_ERR` exactly when a
rehash is in progress, or the requested size is strictly below
`used(T0)`, or the next power of two for the request equals `T0`'s
current size (rehash-to-same-size); in all other cases `DICT_OK`. -/
theorem claim_C4 (d : dict) (size : Nat) :
    (dictExpand d size).1 =
      if dictIsRehashing d = true ∨ size < d.ht0.used ∨
         _dictNextPower size = d.ht0.size
      then DICT_ERR else DICT_OK := by
  simp only [dictExpand]
  by_cases h1 : dictIsRehashing d = true ∨ d.ht0.used > size
  · have hR : dictIsRehashing d = true ∨ size < d.ht0.used ∨
        _dictNextPower size = d.ht0.size := by
      rcases h1 with h | h
      · exact Or.inl h
      · exact Or.inr (Or.inl h)
    rw [if_pos h1, if_pos hR]
  · rw [if_neg h1]
    by_cases h3 : _dictNextPower size = d.ht0.size
    · rw [if_pos h3, if_pos (Or.inr (Or.inr h3))]
    · rw [if_neg h3]
      have hR : ¬(dictIsRehashing d = true ∨ size < d.ht0.used ∨
          _dictNextPower size = d.ht0.size) := by
        push_neg at h1 ⊢
        exact ⟨h1.1, by omega, h3⟩
      by_cases h4 : d.ht0.table = []
      · rw [if_pos h4, if_neg hR]
      · rw [if_neg h4, if_neg hR]

/-- Claim C5 counterexample: expanding a fresh dictionary with requested
size 1 succeeds and allocates a table of size 4, not the smallest power
of two ≥ 1 (which is 1 = 2^0). -/
theorem claim_C5_cex :
    (dictExpand (dictCreate exType) 1).1 = DICT_OK ∧
    (dictExpand (dictCreate exType) 1).2.ht0.size = 4 ∧
    smallestPow2Geq 1 = 1 ∧
    (dictExpand (dictCreate exType) 1).2.ht0.size ≠ smallestPow2Geq 1 := by
  have h1 : smallestPow2Geq 1 = 1 := by
    rw [smallestPow2Geq, Nat.clog_one_right, pow_zero]
  refine ⟨by decide, by decide, h1, ?_⟩
  rw [h1]
  decide

/-- Claim C5, amended: on every successful `dictExpand`, the newly
allocated table (which becomes `T0` on first initialisation, `T1`
otherwise) has size `max 4 (smallest power of two ≥ requested)` for
requests below `LONG_MAX`, and `2^63` for requests ≥ `LONG_MAX`; its
size mask is that size minus one. -/
theorem claim_C5 (d : dict) (size : Nat)
    (h : (dictExpand d size).1 = DICT_OK) :
    (if d.ht0.table = [] then (dictExpand d size).2.ht0
     else (dictExpand d size).2.ht1).size
      = (if LONG_MAX ≤ size then 2 ^ 63
         else max DICT_HT_INITIAL_SIZE (smallestPow2Geq size)) ∧
    (if d.ht0.table = [] then (dictExpand d size).2.ht0
     else (dictExpand d size).2.ht1).sizemask
      = (if d.ht0.table = [] then (dictExpand d size).2.ht0
         else (dictExpand d size).2.ht1).size - 1 := by
  have hnp : _dictNextPower size =
      (if LONG_MAX ≤ size then 2 ^ 63
       else max DICT_HT_INITIAL_SIZE (smallestPow2Geq size)) := by
    by_cases hL : LONG_MAX ≤ size
    · rw [if_pos hL, _dictNextPower, if_pos hL]; norm_num [LONG_MAX]
    · rw [if_neg hL, _dictNextPower_eq size (by omega)]
  by_cases h1 : (dictIsRehashing d = true ∨ d.ht0.used > size)
  · exfalso
    simp only [dictExpand, if_pos h1] at h
    exact absurd h (by norm_num [DICT_ERR, DICT_OK])
  · by_cases h3 : _dictNextPower size = d.ht0.size
    · exfalso
      simp only [dictExpand, if_neg h1, if_pos h3] at h
      exact absurd h (by norm_num [DICT_ERR, DICT_OK])
    · by_cases h4 : d.ht0.table = []
      · simp only [dictExpand, if_neg h1, if_neg h3, if_pos h4]
        simp [hnp]
      · simp only [dictExpand, if_neg h1, if_neg h3, if_neg h4]
        simp [hnp]

/-- Witness for C5: expanding a fresh dictionary with request 1
succeeds, and the amended size formula evaluates to 4. -/
theorem claim_C5_witness :
    (dictExpand (dictCreate exType) 1).1 = DICT_OK ∧
    ((if (dictCreate exType).ht0.table = []
      then (dictExpand (dictCreate exType) 1).2.ht0
      else (dictExpand (dictCreate exType) 1).2.ht1).size
        = (if LONG_MAX ≤ 1 then 2 ^ 63
           else max DICT_HT_INITIAL_SIZE (smallestPow2Geq 1)) ∧
     (if (dictCreate exType).ht0.table = []
      then (dictExpand (dictCreate exType) 1).2.ht0
      else (dictExpand (dictCreate exType) 1).2.ht1).sizemask
        = (if (dictCreate exType).ht0.table = []
           then (dictExpand (dictCreate exType) 1).2.ht0
           else (dictExpand (dictCreate exType) 1).2.ht1).size - 1) :=
  ⟨by decide, claim_C5 (dictCreate exType) 1 (by decide)⟩

/-! ### Small facts about tables -/

theorem getD_ne_nil_lt {α : Type} (l : List (List α)) (i : Nat)
    (h : l.getD i [] ≠ []) : i < l.length := by
  by_contra hc
  exact h (List.getD_eq_default _ _ (Nat.le_of_not_lt hc))

theorem sumLen_zero_flatten_nil {α : Type} (l : List (List α))
    (h : (l.map List.length).sum = 0) : l.flatten = [] := by
  induction l with
  | nil => rfl
  | cons hd tl ih =>
    simp only [List.map_cons, List.sum_cons] at h
    have h1 : hd = [] := List.eq_nil_of_length_eq_zero (by omega)
    simp [h1, ih (by omega)]

theorem htCount_zero_flatten_nil (ht : dictht) (h : htCount ht = 0) :
    ht.table.flatten = [] :=
  sumLen_zero_flatten_nil ht.table h

theorem flatten_replicate_nil (n : Nat) :
    (List.replicate n ([] : List Entry)).flatten = [] := by
  induction n with
  | zero => rfl
  | succ n ih => simp [List.replicate, ih]

theorem sumLen_replicate_nil (n : Nat) :
    ((List.replicate n ([] : List Entry)).map List.length).sum = 0 := by
  induction n with
  | zero => rfl
  | succ n ih => simpa [List.replicate] using ih

theorem getD_replicate_nil (n i : Nat) :
    (List.replicate n ([] : List Entry)).getD i [] = [] := by
  by_cases hi : i < n
  · rw [List.getD_eq_getElem _ _ (by simpa using hi)]
    simp
  · rw [List.getD_eq_default _ _ (by simpa using Nat.le_of_not_lt hi)]

theorem htWF_emptyHt (t : dictType) : htWF t emptyHt := by
  refine ⟨rfl, rfl, Or.inl rfl, rfl, ?_⟩
  intro i e he
  rw [List.getD_eq_default _ _ (by simp [emptyHt])] at he
  simp at he

theorem htWF_fresh (t : dictType) (s k : Nat) (h2 : 2 ≤ k) (h63 : k ≤ 63)
    (hs : s = 2 ^ k) :
    htWF t { table := List.replicate s [], size := s, sizemask := s - 1,
             used := 0 } := by
  refine ⟨List.length_replicate s [], rfl, Or.inr ⟨k, h2, h63, hs⟩, ?_, ?_⟩
  · show 0 = htCount _
    simp [htCount, sumLen_replicate_nil]
  · intro i e he
    have ht : ({ table := List.replicate s [], size := s, sizemask := s - 1, used := 0 } : dictht).table = List.replicate s [] := rfl
    rw [ht, getD_replicate_nil] at he
    simp at he

/-- `x &&& (2^k - 1) < 2^k`. -/
theorem and_mask_lt (x k : Nat) : x &&& (2 ^ k - 1) < 2 ^ k := by
  have h1 : x &&& (2 ^ k - 1) ≤ 2 ^ k - 1 := Nat.and_le_right
  have h2 : (0 : Nat) < 2 ^ k := Nat.pos_pow_of_pos k (by norm_num)
  omega

/-! ### `putBucket` and `moveChain` -/

theorem putBucket_fields (t : dictType) (ht : dictht) (e : Entry) :
    (putBucket t ht e).size = ht.size ∧
    (putBucket t ht e).sizemask = ht.sizemask ∧
    (putBucket t ht e).used = ht.used + 1 ∧
    (putBucket t ht e).table.length = ht.table.length := by
  refine ⟨rfl, rfl, rfl, ?_⟩
  simp [putBucket]

theorem putBucket_htWF (t : dictType) (ht : dictht) (e : Entry)
    (hwf : htWF t ht) (hsz : ht.size ≠ 0) :
    htWF t (putBucket t ht e) ∧
    htCount (putBucket t ht e) = htCount ht + 1 ∧
    ((putBucket t ht e).table.flatten).Perm (e :: ht.table.flatten) := by
  obtain ⟨k, hk2, hk63, hks⟩ := hwf.pow.resolve_left hsz
  have hmask : ht.sizemask = 2 ^ k - 1 := by rw [hwf.mask, hks]
  have hlt : hashKey t e.key &&& ht.sizemask < ht.table.length := by
    rw [hwf.len, hks, hmask]
    exact and_mask_lt _ k
  set m := hashKey t e.key &&& ht.sizemask with hm
  have htab : (putBucket t ht e).table = ht.table.set m (e :: ht.table.getD m []) := rfl
  have hsum := sumLen_set ht.table m (e :: ht.table.getD m []) hlt
  have hcnt : htCount (putBucket t ht e) = htCount ht + 1 := by
    simp only [htCount, htab]
    simp only [List.length_cons] at hsum
    omega
  have hperm : ((putBucket t ht e).table.flatten).Perm (e :: ht.table.flatten) := by
    have hp := flatten_set_perm ht.table m (e :: ht.table.getD m []) hlt
    have he : ht.table.flatten ++ (e :: ht.table.getD m [])
        = (ht.table.flatten ++ [e]) ++ ht.table.getD m [] := by simp
    rw [he] at hp
    rw [htab]
    have := (List.perm_append_right_iff (ht.table.getD m [])).mp hp
    exact this.trans (List.perm_append_singleton e ht.table.flatten)
  refine ⟨⟨?_, hwf.mask, hwf.pow, ?_, ?_⟩, hcnt, hperm⟩
  · rw [htab, List.length_set, hwf.len]
    rfl
  · show ht.used + 1 = _
    rw [hcnt, hwf.cnt]
  · intro i a ha
    rw [htab] at ha
    by_cases hi : i = m
    · subst hi
      rw [getD_set_self _ _ _ hlt] at ha
      rcases List.mem_cons.mp ha with rfl | ha
      · exact hm.symm
      · exact hwf.place m a ha
    · rw [getD_set_ne _ _ _ _ (fun hc => hi hc.symm)] at ha
      exact hwf.place i a ha

theorem moveChain_htWF (t : dictType) (c : List Entry) (ht : dictht)
    (hwf : htWF t ht) (hsz : ht.size ≠ 0) :
    htWF t (moveChain t ht c) ∧
    (moveChain t ht c).size = ht.size ∧
    (moveChain t ht c).sizemask = ht.sizemask ∧
    (moveChain t ht c).used = ht.used + c.length ∧
    htCount (moveChain t ht c) = htCount ht + c.length ∧
    ((moveChain t ht c).table.flatten).Perm (ht.table.flatten ++ c) := by
  induction c generalizing ht with
  | nil =>
    refine ⟨hwf, rfl, rfl, rfl, rfl, ?_⟩
    show ht.table.flatten.Perm (ht.table.flatten ++ [])
    simp
  | cons e rest ih =>
    obtain ⟨pwf, pcnt, pperm⟩ := putBucket_htWF t ht e hwf hsz
    have psz : (putBucket t ht e).size = ht.size := rfl
    have hsz' : (putBucket t ht e).size ≠ 0 := by rw [psz]; exact hsz
    obtain ⟨iwf, isz, imask, iused, icnt, iperm⟩ := ih (putBucket t ht e) pwf hsz'
    have hstep : moveChain t ht (e :: rest) = moveChain t (putBucket t ht e) rest := rfl
    refine ⟨hstep ▸ iwf, ?_, ?_, ?_, ?_, ?_⟩
    · rw [hstep, isz, psz]
    · rw [hstep, imask]; rfl
    · rw [hstep, iused]
      show ht.used + 1 + rest.length = ht.used + (rest.length + 1)
      omega
    · rw [hstep, icnt, pcnt]
      show htCount ht + 1 + rest.length = htCount ht + (rest.length + 1)
      omega
    · rw [hstep]
      refine iperm.trans ?_
      refine (pperm.append_right rest).trans ?_
      show ((e :: ht.table.flatten) ++ rest).Perm (ht.table.flatten ++ e :: rest)
      simpa using (List.perm_middle).symm

/-! ### `skipEmpty`, `finishRehash`, `rehashLoop` -/

theorem skipEmpty_spec (tbl : List (List Entry)) (ev : Nat) :
    ∀ idx, 1 ≤ ev →
    idx ≤ (skipEmpty tbl idx ev).1 ∧
    ((skipEmpty tbl idx ev).1 - idx) + (skipEmpty tbl idx ev).2.1 = ev ∧
    ((skipEmpty tbl idx ev).2.2 = true →
      tbl.getD (skipEmpty tbl idx ev).1 [] ≠ [] ∧ 1 ≤ (skipEmpty tbl idx ev).2.1) ∧
    ((skipEmpty tbl idx ev).2.2 = false → (skipEmpty tbl idx ev).2.1 = 0) := by
  induction ev using Nat.strong_induction_on with
  | _ ev ih =>
    intro idx hev
    by_cases hb : tbl.getD idx [] ≠ []
    · have he : skipEmpty tbl idx ev = (idx, ev, true) := by
        rw [skipEmpty.eq_def, if_pos hb]
      rw [he]
      exact ⟨le_refl _, by show (idx - idx) + ev = ev; omega,
        fun _ => ⟨hb, hev⟩, by simp⟩
    · match ev, hev with
      | 1, _ =>
        have he : skipEmpty tbl idx 1 = (idx + 1, 0, false) := by
          rw [skipEmpty.eq_def, if_neg hb]
        rw [he]
        exact ⟨by show idx ≤ idx + 1; omega,
          by show (idx + 1 - idx) + 0 = 1; omega, by simp, fun _ => rfl⟩
      | ev' + 2, _ =>
        have he : skipEmpty tbl idx (ev' + 2) = skipEmpty tbl (idx + 1) (ev' + 1) := by
          rw [skipEmpty.eq_def, if_neg hb]
        rw [he]
        obtain ⟨ha, hc, hd, hee⟩ := ih (ev' + 1) (by omega) (idx + 1) (by omega)
        exact ⟨by omega, by omega, hd, hee⟩

theorem finishRehash_spec (d : dict) (hwf : dictWF d) (hreh : d.rehashidx ≠ -1) :
    dictWF (finishRehash d).1 ∧
    (finishRehash d).1.type = d.type ∧
    (finishRehash d).1.iterators = d.iterators ∧
    (allEntries (finishRehash d).1).Perm (allEntries d) ∧
    (finishRehash d).1.ht0.used + (finishRehash d).1.ht1.used
      = d.ht0.used + d.ht1.used ∧
    ((finishRehash d).2 = 0 ↔ (finishRehash d).1.rehashidx = -1) ∧
    ((finishRehash d).2 = 0 → (finishRehash d).1.ht1 = emptyHt) := by
  by_cases h0 : d.ht0.used = 0
  · rw [finishRehash, if_pos h0]
    have hf0 : d.ht0.table.flatten = [] :=
      htCount_zero_flatten_nil d.ht0 (by rw [← hwf.wf0.cnt]; exact h0)
    refine ⟨⟨hwf.wf1, htWF_emptyHt d.type, fun _ => rfl, fun h => absurd rfl h⟩,
      rfl, rfl, ?_, ?_, by simp, fun _ => rfl⟩
    · show (d.ht1.table.flatten ++ emptyHt.table.flatten).Perm
        (d.ht0.table.flatten ++ d.ht1.table.flatten)
      rw [hf0]
      simp [emptyHt]
    · show d.ht1.used + emptyHt.used = d.ht0.used + d.ht1.used
      rw [h0]
      simp [emptyHt]
  · rw [finishRehash, if_neg h0]
    refine ⟨hwf, rfl, rfl, List.Perm.refl _, rfl, ?_, by simp⟩
    constructor
    · intro h; exact absurd h (by norm_num)
    · intro h; exact absurd h hreh

theorem rehashLoop_master :
    ∀ (n : Nat) (d : dict) (ev : Nat) (st : RehashStats),
    dictWF d → d.rehashidx ≠ -1 → 1 ≤ ev →
    dictWF (rehashLoop d n ev st).1.1 ∧
    (rehashLoop d n ev st).1.1.type = d.type ∧
    (rehashLoop d n ev st).1.1.iterators = d.iterators ∧
    (allEntries (rehashLoop d n ev st).1.1).Perm (allEntries d) ∧
    (rehashLoop d n ev st).1.1.ht0.used + (rehashLoop d n ev st).1.1.ht1.used
      = d.ht0.used + d.ht1.used ∧
    (rehashLoop d n ev st).2.migrated ≤ st.migrated + n ∧
    (rehashLoop d n ev st).2.emptyProbes ≤ st.emptyProbes + ev ∧
    ((rehashLoop d n ev st).2.emptyProbes = st.emptyProbes + ev →
      (rehashLoop d n ev st).1.2 = 1) ∧
    ((rehashLoop d n ev st).1.2 = 0 ↔ (rehashLoop d n ev st).1.1.rehashidx = -1) ∧
    ((rehashLoop d n ev st).1.2 = 0 → (rehashLoop d n ev st).1.1.ht1 = emptyHt) := by
  intro n
  induction n with
  | zero =>
    intro d ev st hwf hreh hev
    obtain ⟨f1, f2, f3, f4, f5, f6, f7⟩ := finishRehash_spec d hwf hreh
    rw [show rehashLoop d 0 ev st = (finishRehash d, st) from rfl]
    refine ⟨f1, f2, f3, f4, f5, ?_, ?_, ?_, f6, f7⟩
    · show st.migrated ≤ st.migrated + 0
      omega
    · show st.emptyProbes ≤ st.emptyProbes + ev
      omega
    · intro h
      exfalso
      have hh : st.emptyProbes = st.emptyProbes + ev := h
      omega
  | succ n IH =>
    intro d ev st hwf hreh hev
    by_cases h0 : d.ht0.used = 0
    · rw [show rehashLoop d (n + 1) ev st = (finishRehash d, st) by
        rw [rehashLoop, if_pos h0]]
      obtain ⟨f1, f2, f3, f4, f5, f6, f7⟩ := finishRehash_spec d hwf hreh
      refine ⟨f1, f2, f3, f4, f5, ?_, ?_, ?_, f6, f7⟩
      · show st.migrated ≤ st.migrated + (n + 1)
        omega
      · show st.emptyProbes ≤ st.emptyProbes + ev
        omega
      · intro h
        exfalso
        have hh : st.emptyProbes = st.emptyProbes + ev := h
        omega
    · obtain ⟨s1, s2, s3, s4⟩ :=
        skipEmpty_spec d.ht0.table ev d.rehashidx.toNat hev
      by_cases hf : (skipEmpty d.ht0.table d.rehashidx.toNat ev).2.2 = false
      · rw [show rehashLoop d (n + 1) ev st =
          (({ d with rehashidx := ((skipEmpty d.ht0.table d.rehashidx.toNat ev).1 : Int) }, 1),
            { st with emptyProbes := st.emptyProbes +
              ((skipEmpty d.ht0.table d.rehashidx.toNat ev).1 - d.rehashidx.toNat) }) by
          rw [rehashLoop, if_neg h0, if_pos hf]]
        have hzero := s4 hf
        refine ⟨⟨hwf.wf0, hwf.wf1, ?_, ?_⟩, rfl, rfl, List.Perm.refl _, rfl,
          ?_, ?_, fun _ => rfl, ?_, by simp⟩
        · intro h
          exfalso
          have hcast : ((skipEmpty d.ht0.table d.rehashidx.toNat ev).1 : Int) = -1 := h
          omega
        · intro _
          refine ⟨?_, (hwf.reh hreh).2⟩
          show (0 : Int) ≤ ((skipEmpty d.ht0.table d.rehashidx.toNat ev).1 : Int)
          omega
        · show st.migrated ≤ st.migrated + (n + 1)
          omega
        · show st.emptyProbes +
            ((skipEmpty d.ht0.table d.rehashidx.toNat ev).1 - d.rehashidx.toNat)
            ≤ st.emptyProbes + ev
          omega
        · constructor
          · intro h; exact absurd h (by norm_num)
          · intro h
            exfalso
            have : ((skipEmpty d.ht0.table d.rehashidx.toNat ev).1 : Int) = -1 := h
            omega
      · have hft : (skipEmpty d.ht0.table d.rehashidx.toNat ev).2.2 = true := by
          revert hf
          cases (skipEmpty d.ht0.table d.rehashidx.toNat ev).2.2 <;> simp
        obtain ⟨hba, hbb⟩ := s3 hft
        have hidxlt : (skipEmpty d.ht0.table d.rehashidx.toNat ev).1
            < d.ht0.table.length := getD_ne_nil_lt _ _ hba
        set idx := (skipEmpty d.ht0.table d.rehashidx.toNat ev).1 with hidx
        set chain := d.ht0.table.getD idx [] with hchain
        set ht1' := moveChain d.type d.ht1 chain with hht1'
        set ht0' : dictht :=
          { d.ht0 with table := d.ht0.table.set idx [],
                       used := d.ht0.used - chain.length } with hht0'
        set d' : dict :=
          { d with ht0 := ht0', ht1 := ht1', rehashidx := (idx : Int) + 1 } with hd'
        have hstep : rehashLoop d (n + 1) ev st =
            rehashLoop d' n (skipEmpty d.ht0.table d.rehashidx.toNat ev).2.1
              { emptyProbes := st.emptyProbes + (idx - d.rehashidx.toNat),
                migrated := st.migrated + 1 } := by
          rw [rehashLoop, if_neg h0, if_neg (by rw [hft]; simp)]
        obtain ⟨hr0, hr1⟩ := hwf.reh hreh
        obtain ⟨hr2, hr3, hr4⟩ := hr1
        have hsum0 := sumLen_set d.ht0.table idx [] hidxlt
        have hgesum := sumLen_ge d.ht0.table idx
        rw [← hchain] at hsum0 hgesum
        have hwf0' : htWF d.type ht0' := by
          refine ⟨?_, hwf.wf0.mask, ?_, ?_, ?_⟩
          · show (d.ht0.table.set idx []).length = d.ht0.size
            rw [List.length_set, hwf.wf0.len]
          · show d.ht0.size = 0 ∨ _
            exact hwf.wf0.pow
          · show d.ht0.used - chain.length = htCount ht0'
            have hc : htCount ht0' = (d.ht0.table.map List.length).sum - chain.length := by
              show ((d.ht0.table.set idx []).map List.length).sum = _
              simp only [List.length_nil] at hsum0
              omega
            rw [hc]
            have hcnt0 : d.ht0.used = (d.ht0.table.map List.length).sum := hwf.wf0.cnt
            omega
          · intro i a ha
            show hashKey d.type a.key &&& d.ht0.sizemask = i
            by_cases hi : i = idx
            · subst hi
              rw [show ht0'.table = d.ht0.table.set idx [] from rfl,
                getD_set_self _ _ _ hidxlt] at ha
              simp at ha
            · rw [show ht0'.table = d.ht0.table.set idx [] from rfl,
                getD_set_ne _ _ _ _ (fun hc => hi hc.symm)] at ha
              exact hwf.wf0.place i a ha
        obtain ⟨hwf1', hsz1', hmask1', hused1', hcnt1', hperm1'⟩ :=
          moveChain_htWF d.type chain d.ht1 hwf.wf1 hr3
        have hchainle : chain.length ≤ d.ht0.used := by
          rw [hwf.wf0.cnt, htCount]
          exact hgesum
        have hwfd' : dictWF d' := by
          refine ⟨hwf0', hwf1', ?_, ?_⟩
          · intro h
            exfalso
            have : ((idx : Int) + 1) = -1 := h
            omega
          · intro _
            refine ⟨by show (0 : Int) ≤ (idx : Int) + 1; omega, hr2, ?_, ?_⟩
            · show ht1'.size ≠ 0
              rw [hht1', hsz1']; exact hr3
            · show d.ht0.size ≠ ht1'.size
              rw [hht1', hsz1']; exact hr4
        have hpermd' : (allEntries d').Perm (allEntries d) := by
          show (ht0'.table.flatten ++ ht1'.table.flatten).Perm
            (d.ht0.table.flatten ++ d.ht1.table.flatten)
          have hp0 : ((d.ht0.table.set idx []).flatten ++ chain).Perm
              d.ht0.table.flatten := by
            have hp := flatten_set_perm d.ht0.table idx [] hidxlt
            rw [← hchain, List.append_nil] at hp
            exact hp
          have h1 : (ht0'.table.flatten ++ ht1'.table.flatten).Perm
              (ht0'.table.flatten ++ (d.ht1.table.flatten ++ chain)) :=
            List.Perm.append_left _ hperm1'
          have h2 : (ht0'.table.flatten ++ (d.ht1.table.flatten ++ chain)).Perm
              (ht0'.table.flatten ++ (chain ++ d.ht1.table.flatten)) :=
            List.Perm.append_left _ List.perm_append_comm
          have h4 : ((ht0'.table.flatten ++ chain) ++ d.ht1.table.flatten).Perm
              (d.ht0.table.flatten ++ d.ht1.table.flatten) :=
            List.Perm.append_right _ hp0
          have h3 : ht0'.table.flatten ++ (chain ++ d.ht1.table.flatten)
              = (ht0'.table.flatten ++ chain) ++ d.ht1.table.flatten := by
            rw [List.append_assoc]
          exact h1.trans (h2.trans (h3 ▸ h4))
        have husedd' : d'.ht0.used + d'.ht1.used = d.ht0.used + d.ht1.used := by
          show (d.ht0.used - chain.length) + ht1'.used = _
          rw [hht1', hused1']
          omega
        have hreh' : d'.rehashidx ≠ -1 := by
          show ((idx : Int) + 1) ≠ -1
          omega
        obtain ⟨i1, i2, i3, i4, i5, i6, i7, i8, i9, i10⟩ :=
          IH d' (skipEmpty d.ht0.table d.rehashidx.toNat ev).2.1
            { emptyProbes := st.emptyProbes + (idx - d.rehashidx.toNat),
              migrated := st.migrated + 1 } hwfd' hreh' hbb
        rw [hstep]
        refine ⟨i1, by rw [i2], by rw [i3], i4.trans hpermd', by rw [i5, husedd'],
          by simp at i6 ⊢; omega, by simp at i7 ⊢; omega, ?_, i9, i10⟩
        intro hpe
        apply i8
        simp
        omega

/-! ### Preservation of well-formedness by each operation -/

theorem dictRehash_spec (d : dict) (n : Nat) (hwf : dictWF d) :
    dictWF (dictRehash d n).1 ∧
    (dictRehash d n).1.type = d.type ∧
    (dictRehash d n).1.iterators = d.iterators ∧
    (allEntries (dictRehash d n).1).Perm (allEntries d) ∧
    (dictRehash d n).1.ht0.used + (dictRehash d n).1.ht1.used
      = d.ht0.used + d.ht1.used := by
  by_cases hreh : dictIsRehashing d = false
  · rw [show dictRehash d n = (d, 0) by rw [dictRehash, dictRehashC, if_pos hreh]]
    exact ⟨hwf, rfl, rfl, List.Perm.refl _, rfl⟩
  · have hr : d.rehashidx ≠ -1 := by
      simpa [dictIsRehashing] using hreh
    have hC : dictRehash d n = (rehashLoop d n (n * 10) ⟨0, 0⟩).1 := by
      rw [dictRehash, dictRehashC, if_neg hreh]
    match n with
    | 0 =>
      rw [hC, show rehashLoop d 0 (0 * 10) ⟨0, 0⟩ = (finishRehash d, ⟨0, 0⟩) from rfl]
      obtain ⟨f1, f2, f3, f4, f5, _, _⟩ := finishRehash_spec d hwf hr
      exact ⟨f1, f2, f3, f4, f5⟩
    | n + 1 =>
      obtain ⟨m1, m2, m3, m4, m5, _⟩ :=
        rehashLoop_master (n + 1) d ((n + 1) * 10) ⟨0, 0⟩ hwf hr (by omega)
      rw [hC]
      exact ⟨m1, m2, m3, m4, m5⟩

theorem _dictRehashStep_spec (d : dict) (hwf : dictWF d) :
    dictWF (_dictRehashStep d) ∧
    (_dictRehashStep d).type = d.type ∧
    (_dictRehashStep d).iterators = d.iterators ∧
    (allEntries (_dictRehashStep d)).Perm (allEntries d) ∧
    (_dictRehashStep d).ht0.used + (_dictRehashStep d).ht1.used
      = d.ht0.used + d.ht1.used := by
  rw [_dictRehashStep]
  by_cases hit : d.iterators = 0
  · rw [if_pos hit]
    exact dictRehash_spec d 1 hwf
  · rw [if_neg hit]
    exact ⟨hwf, rfl, rfl, List.Perm.refl _, rfl⟩

theorem dictExpand_spec (d : dict) (size : Nat) (hwf : dictWF d) :
    dictWF (dictExpand d size).2 ∧
    (dictExpand d size).2.type = d.type ∧
    (dictExpand d size).2.iterators = d.iterators ∧
    allEntries (dictExpand d size).2 = allEntries d ∧
    (dictExpand d size).2.ht0.used = d.ht0.used ∧
    (dictExpand d size).2.ht1.used = d.ht1.used := by
  rw [dictExpand]
  by_cases h1 : dictIsRehashing d = true ∨ d.ht0.used > size
  · rw [if_pos h1]
    exact ⟨hwf, rfl, rfl, rfl, rfl, rfl⟩
  · rw [if_neg h1]
    push_neg at h1
    have hnotreh : d.rehashidx = -1 := by
      have := h1.1
      simp [dictIsRehashing] at this
      exact this
    by_cases h3 : _dictNextPower size = d.ht0.size
    · rw [if_pos h3]
      exact ⟨hwf, rfl, rfl, rfl, rfl, rfl⟩
    · rw [if_neg h3]
      obtain ⟨k, hk2, hk63, hks⟩ := _dictNextPower_pow size
      have hfreshwf := htWF_fresh d.type (_dictNextPower size) k hk2 hk63 hks
      by_cases h4 : d.ht0.table = []
      · rw [if_pos h4]
        have hused0 : d.ht0.used = 0 := by
          rw [hwf.wf0.cnt, htCount, h4]
          rfl
        refine ⟨⟨hfreshwf, hwf.wf1, ?_, ?_⟩, rfl, rfl, ?_, ?_, rfl⟩
        · intro _
          exact hwf.idle hnotreh
        · intro hcon
          exact absurd hnotreh hcon
        · show (List.replicate (_dictNextPower size) []).flatten
            ++ d.ht1.table.flatten = d.ht0.table.flatten ++ d.ht1.table.flatten
          rw [flatten_replicate_nil, h4]
          rfl
        · show 0 = d.ht0.used
          omega
      · rw [if_neg h4]
        have hsize0 : d.ht0.size ≠ 0 := by
          intro hc
          exact h4 (by
            have := hwf.wf0.len
            rw [hc] at this
            exact List.eq_nil_of_length_eq_zero this)
        have hht1 : d.ht1 = emptyHt := hwf.idle hnotreh
        refine ⟨⟨hwf.wf0, hfreshwf, ?_, ?_⟩, rfl, rfl, ?_, rfl, ?_⟩
        · intro hcon
          exact absurd hcon (by norm_num)
        · intro _
          refine ⟨by norm_num, hsize0, by rw [hks]; positivity, fun hc => h3 hc.symm⟩
        · show d.ht0.table.flatten ++ (List.replicate (_dictNextPower size) []).flatten
            = d.ht0.table.flatten ++ d.ht1.table.flatten
          rw [flatten_replicate_nil, hht1]
          rfl
        · show 0 = d.ht1.used
          rw [hht1]
          rfl

theorem _dictExpandIfNeeded_spec (d : dict) (hwf : dictWF d) :
    dictWF (_dictExpandIfNeeded d).2 ∧
    (_dictExpandIfNeeded d).2.type = d.type ∧
    (_dictExpandIfNeeded d).2.iterators = d.iterators ∧
    allEntries (_dictExpandIfNeeded d).2 = allEntries d ∧
    (_dictExpandIfNeeded d).2.ht0.used = d.ht0.used ∧
    (_dictExpandIfNeeded d).2.ht1.used = d.ht1.used ∧
    ((_dictExpandIfNeeded d).1 = DICT_OK →
      (_dictExpandIfNeeded d).2.ht0.size ≠ 0 ∨
      dictIsRehashing (_dictExpandIfNeeded d).2 = true) := by
  rw [_dictExpandIfNeeded]
  by_cases h1 : dictIsRehashing d = true
  · rw [if_pos h1]
    refine ⟨hwf, rfl, rfl, rfl, rfl, rfl, fun _ => Or.inr h1⟩
  · rw [if_neg h1]
    have hnotreh : d.rehashidx = -1 := by
      simp [dictIsRehashing] at h1
      exact h1
    by_cases h2 : d.ht0.size = 0
    · rw [if_pos h2]
      obtain ⟨e1, e2, e3, e4, e5, e6⟩ := dictExpand_spec d DICT_HT_INITIAL_SIZE hwf
      refine ⟨e1, e2, e3, e4, e5, e6, fun hok => ?_⟩
      left
      have htab : d.ht0.table = [] :=
        List.eq_nil_of_length_eq_zero (by rw [hwf.wf0.len, h2])
      have hused : ¬(dictIsRehashing d = true ∨ d.ht0.used > DICT_HT_INITIAL_SIZE) := by
        push_neg
        refine ⟨h1, ?_⟩
        have : d.ht0.used = 0 := by
          rw [hwf.wf0.cnt, htCount, htab]; rfl
        rw [this, DICT_HT_INITIAL_SIZE]
        omega
      have hne : _dictNextPower DICT_HT_INITIAL_SIZE ≠ d.ht0.size := by
        rw [h2]
        obtain ⟨k, _, _, hk⟩ := _dictNextPower_pow DICT_HT_INITIAL_SIZE
        rw [hk]
        positivity
      rw [dictExpand, if_neg hused, if_neg hne, if_pos htab]
      obtain ⟨k, hk2, _, hk⟩ := _dictNextPower_pow DICT_HT_INITIAL_SIZE
      show _dictNextPower DICT_HT_INITIAL_SIZE ≠ 0
      rw [hk]
      positivity
    · rw [if_neg h2]
      by_cases h3 : d.ht0.used ≥ d.ht0.size ∧
          (dict_can_resize = true ∨ d.ht0.used / d.ht0.size > 5)
      · rw [if_pos h3]
        obtain ⟨e1, e2, e3, e4, e5, e6⟩ := dictExpand_spec d (d.ht0.used * 2) hwf
        refine ⟨e1, e2, e3, e4, e5, e6, fun hok => ?_⟩
        left
        intro hc
        rw [dictExpand] at hc e5
        by_cases hg1 : dictIsRehashing d = true ∨ d.ht0.used > d.ht0.used * 2
        · rw [if_pos hg1] at hc
          exact h2 (by rw [← hc])
        · rw [if_neg hg1] at hc
          by_cases hg3 : _dictNextPower (d.ht0.used * 2) = d.ht0.size
          · rw [if_pos hg3] at hc
            exact h2 (by rw [← hc])
          · rw [if_neg hg3] at hc
            have htabne : d.ht0.table ≠ [] := by
              intro hn
              exact h2 (by rw [← hwf.wf0.len, hn]; rfl)
            rw [if_neg htabne] at hc
            obtain ⟨k, _, _, hk⟩ := _dictNextPower_pow (d.ht0.used * 2)
            simp at hc
            exact h2 hc
      · rw [if_neg h3]
        exact ⟨hwf, rfl, rfl, rfl, rfl, rfl, fun _ => Or.inl h2⟩

theorem dictExpand_code (d : dict) (size : Nat) :
    (dictExpand d size).1 = DICT_OK ∨ (dictExpand d size).1 = DICT_ERR := by
  rw [dictExpand]
  by_cases h1 : dictIsRehashing d = true ∨ d.ht0.used > size
  · rw [if_pos h1]; right; rfl
  · rw [if_neg h1]
    by_cases h3 : _dictNextPower size = d.ht0.size
    · rw [if_pos h3]; right; rfl
    · rw [if_neg h3]
      by_cases h4 : d.ht0.table = []
      · rw [if_pos h4]; left; rfl
      · rw [if_neg h4]; left; rfl

theorem _dictExpandIfNeeded_code (d : dict) :
    (_dictExpandIfNeeded d).1 = DICT_OK ∨ (_dictExpandIfNeeded d).1 = DICT_ERR := by
  rw [_dictExpandIfNeeded]
  by_cases h1 : dictIsRehashing d = true
  · rw [if_pos h1]; left; rfl
  · rw [if_neg h1]
    by_cases h2 : d.ht0.size = 0
    · rw [if_pos h2]; exact dictExpand_code d DICT_HT_INITIAL_SIZE
    · rw [if_neg h2]
      by_cases h3 : d.ht0.used ≥ d.ht0.size ∧
          (dict_can_resize = true ∨ d.ht0.used / d.ht0.size > 5)
      · rw [if_pos h3]; exact dictExpand_code d (d.ht0.used * 2)
      · rw [if_neg h3]; left; rfl

theorem _dictKeyIndex_spec (d : dict) (key hash : Nat) (hwf : dictWF d) :
    dictWF (_dictKeyIndex d key hash).2.2 ∧
    (_dictKeyIndex d key hash).2.2.type = d.type ∧
    (_dictKeyIndex d key hash).2.2.iterators = d.iterators ∧
    allEntries (_dictKeyIndex d key hash).2.2 = allEntries d ∧
    (_dictKeyIndex d key hash).2.2.ht0.used = d.ht0.used ∧
    (_dictKeyIndex d key hash).2.2.ht1.used = d.ht1.used ∧
    ((_dictKeyIndex d key hash).1 ≠ -1 →
      (dictIsRehashing (_dictKeyIndex d key hash).2.2 = true →
        (_dictKeyIndex d key hash).1
          = ((hash &&& (_dictKeyIndex d key hash).2.2.ht1.sizemask : Nat) : Int) ∧
        (_dictKeyIndex d key hash).2.2.ht1.size ≠ 0) ∧
      (dictIsRehashing (_dictKeyIndex d key hash).2.2 = false →
        (_dictKeyIndex d key hash).1
          = ((hash &&& (_dictKeyIndex d key hash).2.2.ht0.sizemask : Nat) : Int) ∧
        (_dictKeyIndex d key hash).2.2.ht0.size ≠ 0)) := by
  obtain ⟨e1, e2, e3, e4, e5, e6, e7⟩ := _dictExpandIfNeeded_spec d hwf
  simp only [_dictKeyIndex]
  by_cases hE : (_dictExpandIfNeeded d).1 = DICT_ERR
  · rw [if_pos hE]
    exact ⟨e1, e2, e3, e4, e5, e6, fun hc => absurd rfl hc⟩
  · rw [if_neg hE]
    have hok : (_dictExpandIfNeeded d).1 = DICT_OK :=
      (_dictExpandIfNeeded_code d).resolve_right hE
    have e7' := e7 hok
    rcases hm0 : findMatch (_dictExpandIfNeeded d).2.type key
        ((_dictExpandIfNeeded d).2.ht0.table.getD
          (hash &&& (_dictExpandIfNeeded d).2.ht0.sizemask) []) with _ | he
    · by_cases hreh : dictIsRehashing (_dictExpandIfNeeded d).2 = true
      · rw [if_pos hreh]
        rcases hm1 : findMatch (_dictExpandIfNeeded d).2.type key
            ((_dictExpandIfNeeded d).2.ht1.table.getD
              (hash &&& (_dictExpandIfNeeded d).2.ht1.sizemask) []) with _ | he1
        · refine ⟨e1, e2, e3, e4, e5, e6, fun _ => ⟨fun _ => ⟨rfl, ?_⟩, ?_⟩⟩
          · exact (e1.reh (by simpa [dictIsRehashing] using hreh)).2.2.1
          · intro hc
            rw [hreh] at hc
            exact absurd hc (by norm_num)
        · exact ⟨e1, e2, e3, e4, e5, e6, fun hc => absurd rfl hc⟩
      · rw [if_neg hreh]
        refine ⟨e1, e2, e3, e4, e5, e6, fun _ => ⟨fun hc => absurd hc hreh, ?_⟩⟩
        intro _
        refine ⟨rfl, ?_⟩
        rcases e7' with h | h
        · exact h
        · exact absurd h hreh
    · exact ⟨e1, e2, e3, e4, e5, e6, fun hc => absurd rfl hc⟩

theorem rehashStepIf_spec (d : dict) (hwf : dictWF d) :
    dictWF (if dictIsRehashing d = true then _dictRehashStep d else d) ∧
    (if dictIsRehashing d = true then _dictRehashStep d else d).type = d.type ∧
    (if dictIsRehashing d = true then _dictRehashStep d else d).iterators
      = d.iterators ∧
    (allEntries (if dictIsRehashing d = true then _dictRehashStep d else d)).Perm
      (allEntries d) ∧
    (if dictIsRehashing d = true then _dictRehashStep d else d).ht0.used +
      (if dictIsRehashing d = true then _dictRehashStep d else d).ht1.used
      = d.ht0.used + d.ht1.used := by
  by_cases h : dictIsRehashing d = true
  · rw [if_pos h]
    exact _dictRehashStep_spec d hwf
  · rw [if_neg h]
    exact ⟨hwf, rfl, rfl, List.Perm.refl _, rfl⟩

theorem dictAddRaw_spec (d : dict) (key val : Nat) (hwf : dictWF d) :
    dictWF (dictAddRaw d key val).2.2 ∧
    (dictAddRaw d key val).2.2.type = d.type ∧
    (dictAddRaw d key val).2.2.iterators = d.iterators ∧
    ((dictAddRaw d key val).1 = none →
      (dictAddRaw d key val).2.2.ht0.used + (dictAddRaw d key val).2.2.ht1.used
        = d.ht0.used + d.ht1.used) := by
  obtain ⟨s1, s2, s3, s4, s5⟩ := rehashStepIf_spec d hwf
  simp only [dictAddRaw]
  set dS := if dictIsRehashing d = true then _dictRehashStep d else d with hdS
  obtain ⟨k1, k2, k3, k4, k5, k6, k7⟩ :=
    _dictKeyIndex_spec dS key (dictHashKey dS key) s1
  set K := _dictKeyIndex dS key (dictHashKey dS key) with hK
  by_cases hn : K.1 = -1
  · rw [if_pos hn]
    refine ⟨k1, by rw [k2, s2], by rw [k3, s3], fun _ => ?_⟩
    rw [k5, k6, s5]
  · rw [if_neg hn]
    have hchar := k7 hn
    by_cases hreh2 : dictIsRehashing K.2.2 = true
    · rw [if_pos hreh2]
      obtain ⟨hidxI, hsz1⟩ := hchar.1 hreh2
      have hidxeq : K.1.toNat = dictHashKey dS key &&& K.2.2.ht1.sizemask := by
        rw [hidxI]
        rfl
      have hidxeq2 : K.1.toNat
          = hashKey K.2.2.type key &&& K.2.2.ht1.sizemask := by
        rw [hidxeq, k2]
        rfl
      have hne2 : K.2.2.rehashidx ≠ -1 := by
        simpa [dictIsRehashing] using hreh2
      have hwf1' : htWF K.2.2.type
          { K.2.2.ht1 with
            table := K.2.2.ht1.table.set K.1.toNat
              (⟨key, val⟩ :: K.2.2.ht1.table.getD K.1.toNat []),
            used := K.2.2.ht1.used + 1 } := by
        rw [hidxeq2]
        exact (putBucket_htWF K.2.2.type K.2.2.ht1 ⟨key, val⟩ k1.wf1 hsz1).1
      refine ⟨⟨k1.wf0, hwf1', ?_, ?_⟩, by rw [k2, s2], by rw [k3, s3], ?_⟩
      · intro hc
        exact absurd hc hne2
      · intro _
        obtain ⟨r1, r2, r3, r4⟩ := k1.reh hne2
        exact ⟨r1, r2, r3, r4⟩
      · intro hc
        exact absurd hc (by simp)
    · rw [if_neg hreh2]
      obtain ⟨hidxI, hsz0⟩ := hchar.2 (by
        revert hreh2
        cases dictIsRehashing K.2.2 <;> simp)
      have hidxeq : K.1.toNat = dictHashKey dS key &&& K.2.2.ht0.sizemask := by
        rw [hidxI]
        rfl
      have hidxeq2 : K.1.toNat
          = hashKey K.2.2.type key &&& K.2.2.ht0.sizemask := by
        rw [hidxeq, k2]
        rfl
      have hwf0' : htWF K.2.2.type
          { K.2.2.ht0 with
            table := K.2.2.ht0.table.set K.1.toNat
              (⟨key, val⟩ :: K.2.2.ht0.table.getD K.1.toNat []),
            used := K.2.2.ht0.used + 1 } := by
        rw [hidxeq2]
        exact (putBucket_htWF K.2.2.type K.2.2.ht0 ⟨key, val⟩ k1.wf0 hsz0).1
      have hidle : K.2.2.rehashidx = -1 := by
        revert hreh2
        rw [dictIsRehashing]
        rcases K.2.2.rehashidx with _ | _ <;> simp
      refine ⟨⟨hwf0', k1.wf1, ?_, ?_⟩, by rw [k2, s2], by rw [k3, s3], ?_⟩
      · intro _
        exact k1.idle hidle
      · intro hc
        exact absurd hidle hc
      · intro hc
        exact absurd hc (by simp)

theorem dictAdd_spec (d : dict) (key val : Nat) (hwf : dictWF d) :
    dictWF (dictAdd d key val).2 ∧
    (dictAdd d key val).2.type = d.type ∧
    (dictAdd d key val).2.iterators = d.iterators ∧
    ((dictAdd d key val).1 = DICT_ERR →
      (dictAdd d key val).2.ht0.used + (dictAdd d key val).2.ht1.used
        = d.ht0.used + d.ht1.used) := by
  obtain ⟨a1, a2, a3, a4⟩ := dictAddRaw_spec d key val hwf
  simp only [dictAdd]
  rcases hr : (dictAddRaw d key val).1 with _ | e
  · rw [hr] at a4
    exact ⟨a1, a2, a3, fun _ => a4 rfl⟩
  · refine ⟨a1, a2, a3, fun hc => ?_⟩
    exact absurd hc (by norm_num [DICT_OK, DICT_ERR])


/-! ### Deletion: chain removal, per-table and whole-dict preservation -/

theorem mem_flatten_getD {α : Type} (l : List (List α)) (a : α)
    (h : a ∈ l.flatten) : ∃ i, a ∈ l.getD i [] := by
  induction l with
  | nil => simp at h
  | cons hd tl ih =>
    rw [List.flatten_cons, List.mem_append] at h
    rcases h with h | h
    · exact ⟨0, h⟩
    · obtain ⟨i, hi⟩ := ih h
      exact ⟨i + 1, hi⟩

theorem removeFromChain_perm (t : dictType) (key : Nat) :
    ∀ c : List Entry, ∀ e c', removeFromChain t key c = some (e, c') →
      c.Perm (e :: c') := by
  intro c
  induction c with
  | nil =>
    intro e c' h
    simp [removeFromChain] at h
  | cons he rest ih =>
    intro e c' h
    simp only [removeFromChain] at h
    by_cases hb : (key == he.key || t.keyCompare key he.key) = true
    · rw [if_pos hb] at h
      injection h with h1
      injection h1 with h2 h3
      subst h2
      subst h3
      exact List.Perm.refl _
    · rw [if_neg hb] at h
      rcases hm : removeFromChain t key rest with _ | r
      · rw [hm] at h
        exact absurd h (by simp)
      · rw [hm] at h
        injection h with h1
        injection h1 with h2 h3
        subst h2
        subst h3
        exact (List.Perm.cons he (ih r.1 r.2 hm)).trans
          (List.Perm.swap r.1 he r.2)

theorem htWF_removeBucket (t : dictType) (ht : dictht) (idx : Nat)
    (e : Entry) (c' : List Entry) (hwf : htWF t ht)
    (hperm : (ht.table.getD idx []).Perm (e :: c')) :
    htWF t { ht with table := ht.table.set idx c', used := ht.used - 1 } ∧
    1 ≤ ht.used := by
  have hlenc : (ht.table.getD idx []).length = c'.length + 1 := by
    rw [hperm.length_eq]
    rfl
  have hne : ht.table.getD idx [] ≠ [] := by
    intro hc
    rw [hc] at hlenc
    simp at hlenc
  have hlt : idx < ht.table.length := getD_ne_nil_lt ht.table idx hne
  have hge := sumLen_ge ht.table idx
  have hcnt : ht.used = (ht.table.map List.length).sum := hwf.cnt
  have hused1 : 1 ≤ ht.used := by omega
  have hsum := sumLen_set ht.table idx c' hlt
  refine ⟨⟨?_, hwf.mask, hwf.pow, ?_, ?_⟩, hused1⟩
  · show (ht.table.set idx c').length = ht.size
    rw [List.length_set]
    exact hwf.len
  · show ht.used - 1 = ((ht.table.set idx c').map List.length).sum
    omega
  · intro i a ha
    show hashKey t a.key &&& ht.sizemask = i
    have ha' : a ∈ (ht.table.set idx c').getD i [] := ha
    by_cases hi : i = idx
    · subst hi
      rw [getD_set_self _ _ _ hlt] at ha'
      exact hwf.place i a (hperm.mem_iff.mpr (List.mem_cons_of_mem e ha'))
    · rw [getD_set_ne _ _ _ _ (fun hc => hi hc.symm)] at ha'
      exact hwf.place i a ha'

theorem dictGenericDelete_spec (d : dict) (key : Nat) (hwf : dictWF d) :
    dictWF (dictGenericDelete d key).2 ∧
    (dictGenericDelete d key).2.type = d.type ∧
    (dictGenericDelete d key).2.iterators = d.iterators ∧
    ((dictGenericDelete d key).1 = none →
      (allEntries (dictGenericDelete d key).2).Perm (allEntries d) ∧
      (dictGenericDelete d key).2.ht0.used + (dictGenericDelete d key).2.ht1.used
        = d.ht0.used + d.ht1.used) := by
  simp only [dictGenericDelete]
  by_cases h0 : d.ht0.used = 0 ∧ d.ht1.used = 0
  · rw [if_pos h0]
    exact ⟨hwf, rfl, rfl, fun _ => ⟨List.Perm.refl _, rfl⟩⟩
  · rw [if_neg h0]
    obtain ⟨s1, s2, s3, s4, s5⟩ := rehashStepIf_spec d hwf
    set dS := if dictIsRehashing d = true then _dictRehashStep d else d with hdS
    rcases hr0 : removeFromChain dS.type key
        (dS.ht0.table.getD (dictHashKey dS key &&& dS.ht0.sizemask) [])
      with _ | r
    · by_cases hreh : dictIsRehashing dS = true
      · rw [if_pos hreh]
        rcases hr1 : removeFromChain dS.type key
            (dS.ht1.table.getD (dictHashKey dS key &&& dS.ht1.sizemask) [])
          with _ | r
        · exact ⟨s1, s2, s3, fun _ => ⟨s4, s5⟩⟩
        · have hperm := removeFromChain_perm dS.type key _ r.1 r.2 hr1
          obtain ⟨hwf1', hused1⟩ :=
            htWF_removeBucket dS.type dS.ht1
              (dictHashKey dS key &&& dS.ht1.sizemask) r.1 r.2 s1.wf1 hperm
          have hne1 : dS.rehashidx ≠ -1 := by
            simpa [dictIsRehashing] using hreh
          refine ⟨⟨s1.wf0, hwf1', ?_, ?_⟩, s2, s3, ?_⟩
          · intro hc
            exact absurd hc hne1
          · intro _
            exact s1.reh hne1
          · intro hc
            exact absurd hc (by simp)
      · rw [if_neg hreh]
        exact ⟨s1, s2, s3, fun _ => ⟨s4, s5⟩⟩
    · have hperm := removeFromChain_perm dS.type key _ r.1 r.2 hr0
      obtain ⟨hwf0', hused1⟩ :=
        htWF_removeBucket dS.type dS.ht0
          (dictHashKey dS key &&& dS.ht0.sizemask) r.1 r.2 s1.wf0 hperm
      refine ⟨⟨hwf0', s1.wf1, ?_, ?_⟩, s2, s3, ?_⟩
      · intro hc
        exact s1.idle hc
      · intro hc
        exact s1.reh hc
      · intro hc
        exact absurd hc (by simp)

theorem dictDelete_spec (d : dict) (key : Nat) (hwf : dictWF d) :
    dictWF (dictDelete d key).2 ∧
    (dictDelete d key).2.type = d.type ∧
    (dictDelete d key).2.iterators = d.iterators ∧
    ((dictDelete d key).1 = DICT_ERR →
      (allEntries (dictDelete d key).2).Perm (allEntries d) ∧
      (dictDelete d key).2.ht0.used + (dictDelete d key).2.ht1.used
        = d.ht0.used + d.ht1.used) := by
  obtain ⟨g1, g2, g3, g4⟩ := dictGenericDelete_spec d key hwf
  simp only [dictDelete]
  rcases hr : (dictGenericDelete d key).1 with _ | e
  · rw [hr] at g4
    exact ⟨g1, g2, g3, fun _ => g4 rfl⟩
  · refine ⟨g1, g2, g3, fun hc => ?_⟩
    exact absurd hc (by norm_num [DICT_OK, DICT_ERR])


/-! ### In-place replacement and lookup -/

theorem replaceInChain_keys (t : dictType) (key val : Nat) :
    ∀ c : List Entry,
      (replaceInChain t key val c).1.map Entry.key = c.map Entry.key := by
  intro c
  induction c with
  | nil => rfl
  | cons he rest ih =>
    simp only [replaceInChain]
    by_cases hb : (key == he.key || t.keyCompare key he.key) = true
    · rw [if_pos hb]
      rfl
    · rw [if_neg hb]
      simp only [List.map_cons]
      rw [ih]

theorem htWF_replaceBucket (t : dictType) (ht : dictht) (idx : Nat)
    (c' : List Entry) (hwf : htWF t ht)
    (hkeys : c'.map Entry.key = (ht.table.getD idx []).map Entry.key) :
    htWF t { ht with table := ht.table.set idx c' } := by
  have hlenc : c'.length = (ht.table.getD idx []).length := by
    rw [← List.length_map c' Entry.key, hkeys, List.length_map]
  by_cases hlt : idx < ht.table.length
  · have hsum := sumLen_set ht.table idx c' hlt
    refine ⟨?_, hwf.mask, hwf.pow, ?_, ?_⟩
    · show (ht.table.set idx c').length = ht.size
      rw [List.length_set]
      exact hwf.len
    · show ht.used = ((ht.table.set idx c').map List.length).sum
      have hcnt : ht.used = (ht.table.map List.length).sum := hwf.cnt
      omega
    · intro i a ha
      show hashKey t a.key &&& ht.sizemask = i
      have ha' : a ∈ (ht.table.set idx c').getD i [] := ha
      by_cases hi : i = idx
      · subst hi
        rw [getD_set_self _ _ _ hlt] at ha'
        have hak : a.key ∈ (ht.table.getD i []).map Entry.key := by
          rw [← hkeys]
          exact List.mem_map_of_mem Entry.key ha'
        obtain ⟨b, hb1, hb2⟩ := List.mem_map.mp hak
        rw [← hb2]
        exact hwf.place i b hb1
      · rw [getD_set_ne _ _ _ _ (fun hc => hi hc.symm)] at ha'
        exact hwf.place i a ha'
  · have hid : ht.table.set idx c' = ht.table :=
      List.set_eq_of_length_le (Nat.le_of_not_lt hlt)
    have : ({ ht with table := ht.table.set idx c' } : dictht) = ht := by
      rw [hid]
    rw [this]
    exact hwf

theorem dictSetExistingVal_spec (d : dict) (key val : Nat) (hwf : dictWF d) :
    dictWF (dictSetExistingVal d key val) ∧
    (dictSetExistingVal d key val).type = d.type ∧
    (dictSetExistingVal d key val).iterators = d.iterators := by
  simp only [dictSetExistingVal]
  by_cases hb : (replaceInChain d.type key val
      (d.ht0.table.getD (dictHashKey d key &&& d.ht0.sizemask) [])).2 = true
  · rw [if_pos hb]
    have hwf0' := htWF_replaceBucket d.type d.ht0
      (dictHashKey d key &&& d.ht0.sizemask)
      (replaceInChain d.type key val
        (d.ht0.table.getD (dictHashKey d key &&& d.ht0.sizemask) [])).1
      hwf.wf0 (replaceInChain_keys d.type key val _)
    exact ⟨⟨hwf0', hwf.wf1, fun hc => hwf.idle hc, fun hc => hwf.reh hc⟩,
      rfl, rfl⟩
  · rw [if_neg hb]
    have hwf1' := htWF_replaceBucket d.type d.ht1
      (dictHashKey d key &&& d.ht1.sizemask)
      (replaceInChain d.type key val
        (d.ht1.table.getD (dictHashKey d key &&& d.ht1.sizemask) [])).1
      hwf.wf1 (replaceInChain_keys d.type key val _)
    refine ⟨⟨hwf.wf0, hwf1', ?_, fun hc => hwf.reh hc⟩, rfl, rfl⟩
    intro hc
    have hE := hwf.idle hc
    show ({ d.ht1 with table := d.ht1.table.set _ _ } : dictht) = emptyHt
    rw [hE]
    rfl

theorem dictReplace_spec (d : dict) (key val : Nat) (hwf : dictWF d) :
    dictWF (dictReplace d key val).2 ∧
    (dictReplace d key val).2.type = d.type ∧
    (dictReplace d key val).2.iterators = d.iterators := by
  obtain ⟨a1, a2, a3, _⟩ := dictAddRaw_spec d key val hwf
  simp only [dictReplace]
  rcases hr : (dictAddRaw d key val).1 with _ | e
  · obtain ⟨e1, e2, e3⟩ :=
      dictSetExistingVal_spec (dictAddRaw d key val).2.2 key val a1
    exact ⟨e1, by rw [e2, a2], by rw [e3, a3]⟩
  · exact ⟨a1, a2, a3⟩

theorem dictFind_spec (d : dict) (key : Nat) (hwf : dictWF d) :
    dictWF (dictFind d key).2 ∧
    (dictFind d key).2.type = d.type ∧
    (dictFind d key).2.iterators = d.iterators ∧
    (allEntries (dictFind d key).2).Perm (allEntries d) ∧
    (dictFind d key).2.ht0.used + (dictFind d key).2.ht1.used
      = d.ht0.used + d.ht1.used := by
  simp only [dictFind]
  by_cases h0 : d.ht0.used + d.ht1.used = 0
  · rw [if_pos h0]
    exact ⟨hwf, rfl, rfl, List.Perm.refl _, rfl⟩
  · rw [if_neg h0]
    obtain ⟨s1, s2, s3, s4, s5⟩ := rehashStepIf_spec d hwf
    set dS := if dictIsRehashing d = true then _dictRehashStep d else d with hdS
    rcases hm : findMatch dS.type key
        (dS.ht0.table.getD (dictHashKey dS key &&& dS.ht0.sizemask) [])
      with _ | he
    · by_cases hreh : dictIsRehashing dS = true
      · rw [if_pos hreh]
        exact ⟨s1, s2, s3, s4, s5⟩
      · rw [if_neg hreh]
        exact ⟨s1, s2, s3, s4, s5⟩
    · exact ⟨s1, s2, s3, s4, s5⟩

/-! ### Well-formedness of every reachable dictionary -/

theorem dictWF_dictCreate (t : dictType) : dictWF (dictCreate t) :=
  ⟨htWF_emptyHt t, htWF_emptyHt t, fun _ => rfl, fun hc => absurd rfl hc⟩

theorem applyOp_spec (d : dict) (op : Op) (hwf : dictWF d) :
    dictWF (applyOp d op) := by
  cases op with
  | expand size => exact (dictExpand_spec d size hwf).1
  | add k v => exact (dictAdd_spec d k v hwf).1
  | replace k v => exact (dictReplace_spec d k v hwf).1
  | delete k => exact (dictDelete_spec d k hwf).1
  | find k => exact (dictFind_spec d k hwf).1
  | rehash n => exact (dictRehash_spec d n hwf).1

theorem foldl_applyOp_wf (l : List Op) :
    ∀ d : dict, dictWF d → dictWF (l.foldl applyOp d) := by
  induction l with
  | nil => intro d h; exact h
  | cons op rest ih =>
    intro d h
    exact ih (applyOp d op) (applyOp_spec d op h)

theorem runOps_wf (t : dictType) (ops : List Op) : dictWF (runOps t ops) :=
  foldl_applyOp_wf ops (dictCreate t) (dictWF_dictCreate t)

/-- Claim C1: for every sequence of dictionary operations applied to a
fresh dictionary (expand, insert, replace, remove, lookup, rehash steps),
the sum `used(T0) + used(T1)` equals the number of entries logically in
the dictionary, and whenever the rehash cursor is `-1`, `used(T1) = 0`
and `T1`'s table is unallocated. -/
theorem claim_C1 (t : dictType) (ops : List Op) :
    (runOps t ops).ht0.used + (runOps t ops).ht1.used
      = entryCount (runOps t ops) ∧
    ((runOps t ops).rehashidx = -1 →
      (runOps t ops).ht1.used = 0 ∧ (runOps t ops).ht1.table = []) := by
  have hwf := runOps_wf t ops
  constructor
  · rw [entryCount, ← hwf.wf0.cnt, ← hwf.wf1.cnt]
  · intro hidle
    rw [hwf.idle hidle]
    exact ⟨rfl, rfl⟩


/-- Claim C3: for every well-formed dictionary in rehashing state and
every `n ≥ 1`, one `dictRehash(d, n)` call migrates at most `n` non-empty
buckets, probes at most `10 × n` empty buckets and answers `1` (more work
remains) when that budget is consumed; it answers `0` exactly when the
rehash completed, in which case the cursor is reset to `-1` and `T1` is
the unallocated table again; and when `used(T0)` is already `0` the call
frees `T0`'s array, promotes `T1` to `T0`, resets the cursor to `-1` and
returns `0`. -/
theorem claim_C3 (d : dict) (n : Nat) (hwf : dictWF d)
    (hreh : dictIsRehashing d = true) (hn : 1 ≤ n) :
    (dictRehashC d n).2.migrated ≤ n ∧
    (dictRehashC d n).2.emptyProbes ≤ 10 * n ∧
    ((dictRehashC d n).2.emptyProbes = 10 * n → (dictRehash d n).2 = 1) ∧
    ((dictRehash d n).2 = 0 ↔ (dictRehash d n).1.rehashidx = -1) ∧
    ((dictRehash d n).2 = 0 → (dictRehash d n).1.ht1 = emptyHt) ∧
    (d.ht0.used = 0 → dictRehash d n
      = ({ d with ht0 := d.ht1, ht1 := emptyHt, rehashidx := -1 }, 0)) := by
  have hrid : d.rehashidx ≠ -1 := by
    simpa [dictIsRehashing] using hreh
  have hfalse : ¬ (dictIsRehashing d = false) := by simp [hreh]
  have hC : dictRehashC d n = rehashLoop d n (n * 10) ⟨0, 0⟩ := by
    rw [dictRehashC, if_neg hfalse]
  obtain ⟨-, -, -, -, -, m6, m7, m8, m9, m10⟩ :=
    rehashLoop_master n d (n * 10) ⟨0, 0⟩ hwf hrid (by omega)
  have m6' : (rehashLoop d n (n * 10) ⟨0, 0⟩).2.migrated ≤ 0 + n := m6
  have m7' : (rehashLoop d n (n * 10) ⟨0, 0⟩).2.emptyProbes ≤ 0 + n * 10 := m7
  have m8' : (rehashLoop d n (n * 10) ⟨0, 0⟩).2.emptyProbes = 0 + n * 10 →
      (rehashLoop d n (n * 10) ⟨0, 0⟩).1.2 = 1 := m8
  refine ⟨by rw [hC]; omega, by rw [hC]; omega, ?_, ?_, ?_, ?_⟩
  · intro hp
    rw [hC] at hp
    rw [dictRehash, hC]
    exact m8' (by omega)
  · rw [dictRehash, hC]
    exact m9
  · rw [dictRehash, hC]
    exact m10
  · intro h0
    obtain ⟨n', rfl⟩ : ∃ n', n = n' + 1 := ⟨n - 1, by omega⟩
    rw [dictRehash, hC, rehashLoop, if_pos h0, finishRehash, if_pos h0]

/-- Closed instance of `claim_C3`: the concrete rehashing dictionary
`exDict3` with `n = 1`. -/
theorem claim_C3_witness :
    dictWF exDict3 ∧ dictIsRehashing exDict3 = true ∧ 1 ≤ 1 ∧
    ((dictRehashC exDict3 1).2.migrated ≤ 1 ∧
     (dictRehashC exDict3 1).2.emptyProbes ≤ 10 * 1 ∧
     ((dictRehashC exDict3 1).2.emptyProbes = 10 * 1 →
       (dictRehash exDict3 1).2 = 1) ∧
     ((dictRehash exDict3 1).2 = 0 ↔ (dictRehash exDict3 1).1.rehashidx = -1) ∧
     ((dictRehash exDict3 1).2 = 0 → (dictRehash exDict3 1).1.ht1 = emptyHt) ∧
     (exDict3.ht0.used = 0 → dictRehash exDict3 1
       = ({ exDict3 with ht0 := exDict3.ht1, ht1 := emptyHt, rehashidx := -1 }, 0))) := by
  have hwf : dictWF exDict3 :=
    runOps_wf exType [Op.add 1 10, Op.add 2 20, Op.expand 8]
  exact ⟨hwf, by decide, by decide, claim_C3 exDict3 1 hwf (by decide) (by decide)⟩


/-! ### Safe iterators and rehash suppression -/

theorem dictNextLoop_preserves (fuel : Nat) :
    ∀ (d : dict) (iter : dictIterator),
      ¬(iter.index = -1 ∧ iter.table = 0 ∧ iter.safe = true) →
      -1 ≤ iter.index →
      (dictNextLoop fuel d iter).2.1 = d := by
  induction fuel with
  | zero =>
    intro d iter hguard hidx
    rfl
  | succ fuel ih =>
    intro d iter hguard hidx
    simp only [dictNextLoop]
    by_cases hent : iter.entry = []
    · rw [if_pos hent, if_neg hguard]
      by_cases hsz : ((if iter.table = 0 then d.ht0 else d.ht1).size : Int)
          ≤ iter.index + 1
      · rw [if_pos hsz]
        by_cases hreh : dictIsRehashing d = true ∧ iter.table = 0
        · rw [if_pos hreh]
          rcases hch : d.ht1.table.getD 0 [] with _ | ⟨e, rest⟩
          · exact ih d { iter with table := 1, index := 0, entry := [] }
              (by simp) (by norm_num)
          · rfl
        · rw [if_neg hreh]
      · rw [if_neg hsz]
        rcases hch : (if iter.table = 0 then d.ht0 else d.ht1).table.getD
            (iter.index + 1).toNat [] with _ | ⟨e, rest⟩
        · refine ih d { iter with index := iter.index + 1, entry := [] } ?_ ?_
          · rintro ⟨h1, -, -⟩
            have h1' : iter.index + 1 = -1 := h1
            omega
          · show -1 ≤ iter.index + 1
            omega
        · rfl
    · rw [if_neg hent]
      rcases hne : iter.nextEntry with _ | ⟨e, rest⟩
      · exact ih d ⟨iter.table, iter.index, iter.safe, [], []⟩ hguard hidx
      · rfl

theorem dictNextLoop_safe_first (d : dict) (k : Nat) :
    (dictNextLoop (k + 1) d dictGetSafeIterator).2.1
      = { d with iterators := d.iterators + 1 } := by
  simp only [dictNextLoop, dictGetSafeIterator, dictGetIterator]
  norm_num
  by_cases hsz : d.ht0.size = 0
  · rw [if_pos hsz]
    by_cases hreh : dictIsRehashing { d with iterators := d.iterators + 1 } = true
    · rw [if_pos hreh]
      rcases hch : d.ht1.table[0]?.getD [] with _ | ⟨e, rest⟩
      · exact dictNextLoop_preserves k _ _ (by simp) (by norm_num)
      · rfl
    · rw [if_neg hreh]
  · rw [if_neg hsz]
    rcases hch : d.ht0.table[0]?.getD [] with _ | ⟨e, rest⟩
    · exact dictNextLoop_preserves k _ _ (by simp) (by norm_num)
    · rfl

theorem dictNext_safe_first (d : dict) :
    (dictNext d dictGetSafeIterator).2.1
      = { d with iterators := d.iterators + 1 } :=
  dictNextLoop_safe_first d (d.ht0.size + d.ht1.size + 1)

theorem rehashStepIf_frozen (d : dict) (hit : d.iterators ≠ 0) :
    (if dictIsRehashing d = true then _dictRehashStep d else d) = d := by
  by_cases h : dictIsRehashing d = true
  · rw [if_pos h, _dictRehashStep, if_neg hit]
  · rw [if_neg h]

theorem dictFind_frozen (d : dict) (key : Nat) (hit : d.iterators ≠ 0) :
    (dictFind d key).2 = d := by
  simp only [dictFind]
  by_cases h0 : d.ht0.used + d.ht1.used = 0
  · rw [if_pos h0]
  · rw [if_neg h0, rehashStepIf_frozen d hit]
    rcases hm : findMatch d.type key
        (d.ht0.table.getD (dictHashKey d key &&& d.ht0.sizemask) [])
      with _ | he
    · by_cases hreh : dictIsRehashing d = true
      · rw [if_pos hreh]
      · rw [if_neg hreh]
    · rfl

theorem dictDelete_frozen_rehashidx (d : dict) (key : Nat)
    (hit : d.iterators ≠ 0) :
    (dictDelete d key).2.rehashidx = d.rehashidx := by
  simp only [dictDelete, dictGenericDelete]
  by_cases h0 : d.ht0.used = 0 ∧ d.ht1.used = 0
  · rw [if_pos h0]
  · rw [if_neg h0, rehashStepIf_frozen d hit]
    rcases hr0 : removeFromChain d.type key
        (d.ht0.table.getD (dictHashKey d key &&& d.ht0.sizemask) [])
      with _ | r
    · by_cases hreh : dictIsRehashing d = true
      · rw [if_pos hreh]
        rcases hr1 : removeFromChain d.type key
            (d.ht1.table.getD (dictHashKey d key &&& d.ht1.sizemask) [])
          with _ | r
        · rfl
        · rfl
      · rw [if_neg hreh]
    · rfl

theorem dictAdd_frozen_rehashidx (d : dict) (key val : Nat)
    (hit : d.iterators ≠ 0) (hreh : dictIsRehashing d = true) :
    (dictAdd d key val).2.rehashidx = d.rehashidx := by
  have hKE : _dictExpandIfNeeded d = (DICT_OK, d) := by
    rw [_dictExpandIfNeeded, if_pos hreh]
  have hstep : _dictRehashStep d = d := by
    rw [_dictRehashStep, if_neg hit]
  rcases hm0 : findMatch d.type key
      ((d.ht0.table[dictHashKey d key &&& d.ht0.sizemask]?).getD [])
    with _ | he
  · rcases hm1 : findMatch d.type key
        ((d.ht1.table[dictHashKey d key &&& d.ht1.sizemask]?).getD [])
      with _ | he
    · have hne : ((dictHashKey d key &&& d.ht1.sizemask : Nat) : Int) ≠ -1 := by
        omega
      have hK : _dictKeyIndex d key (dictHashKey d key)
          = (((dictHashKey d key &&& d.ht1.sizemask : Nat) : Int), none, d) := by
        simp [_dictKeyIndex, hKE, hm0, hm1, hreh, DICT_OK, DICT_ERR]
      simp [dictAdd, dictAddRaw, hstep, hK, hne, hreh]
    · have hK : _dictKeyIndex d key (dictHashKey d key) = (-1, some he, d) := by
        simp [_dictKeyIndex, hKE, hm0, hm1, hreh, DICT_OK, DICT_ERR]
      simp [dictAdd, dictAddRaw, hstep, hK]
  · have hK : _dictKeyIndex d key (dictHashKey d key) = (-1, some he, d) := by
      simp [_dictKeyIndex, hKE, hm0, DICT_OK, DICT_ERR]
    simp [dictAdd, dictAddRaw, hstep, hK]


/-- Claim C6 counterexample: `dictGetSafeIterator` builds the iterator
without touching the dictionary, so the safe-iterator counter is NOT
incremented at creation; right after creating a safe iterator on the
rehashing dictionary `exDict3` the counter is still `0`, and a plain
lookup advances the rehash cursor from `0` to `2`. -/
theorem claim_C6_cex :
    dictGetSafeIterator.safe = true ∧
    exDict3.iterators = 0 ∧
    exDict3.rehashidx = 0 ∧
    (dictFind exDict3 1).2.rehashidx = 2 := by decide

/-- Claim C6, amended: the safe-iterator counter is incremented at the
first `dictNext` call of a fresh safe iterator (not at its creation), it
is decremented by `dictReleaseIterator` of a started safe iterator, and
while the counter is non-zero no lookup, insert or remove advances the
cursor of a rehash in progress. -/
theorem claim_C6 (d : dict) (iter : dictIterator) (key val : Nat)
    (hsafe : iter.safe = true) (hstarted : ¬(iter.index = -1 ∧ iter.table = 0))
    (hit : d.iterators ≠ 0) (hreh : dictIsRehashing d = true) :
    (dictNext d dictGetSafeIterator).2.1
      = { d with iterators := d.iterators + 1 } ∧
    dictReleaseIterator d iter = { d with iterators := d.iterators - 1 } ∧
    (dictFind d key).2.rehashidx = d.rehashidx ∧
    (dictAdd d key val).2.rehashidx = d.rehashidx ∧
    (dictDelete d key).2.rehashidx = d.rehashidx := by
  refine ⟨dictNext_safe_first d, ?_, ?_, ?_, ?_⟩
  · rw [dictReleaseIterator, if_pos ⟨hstarted, hsafe⟩]
  · rw [dictFind_frozen d key hit]
  · exact dictAdd_frozen_rehashidx d key val hit hreh
  · exact dictDelete_frozen_rehashidx d key hit

/-- Closed instance of `claim_C6`: the started safe iterator `exIter` on
the rehashing dictionary `exDictIt` whose counter is `1`. -/
theorem claim_C6_witness :
    exIter.safe = true ∧ ¬(exIter.index = -1 ∧ exIter.table = 0) ∧
    exDictIt.iterators ≠ 0 ∧ dictIsRehashing exDictIt = true ∧
    ((dictNext exDictIt dictGetSafeIterator).2.1
        = { exDictIt with iterators := exDictIt.iterators + 1 } ∧
     dictReleaseIterator exDictIt exIter
        = { exDictIt with iterators := exDictIt.iterators - 1 } ∧
     (dictFind exDictIt 1).2.rehashidx = exDictIt.rehashidx ∧
     (dictAdd exDictIt 1 7).2.rehashidx = exDictIt.rehashidx ∧
     (dictDelete exDictIt 1).2.rehashidx = exDictIt.rehashidx) :=
  ⟨by decide, by decide, by decide, by decide,
    claim_C6 exDictIt exIter 1 7 (by decide) (by decide) (by decide) (by decide)⟩


/-! ### Error codes of insert-existing and delete-absent -/

theorem presentKey_of_perm {d d' : dict} {key : Nat}
    (h : (allEntries d').Perm (allEntries d)) (hp : presentKey d key) :
    presentKey d' key := by
  obtain ⟨e, he, hk⟩ := hp
  exact ⟨e, h.mem_iff.mpr he, hk⟩

theorem _dictKeyIndex_found (d : dict) (key : Nat) (hwf : dictWF d)
    (hcmp : eqCmp d.type) (hpres : presentKey d key) :
    (_dictKeyIndex d key (hashKey d.type key)).1 = -1 := by
  obtain ⟨e1, e2, e3, e4, e5, e6, e7⟩ := _dictExpandIfNeeded_spec d hwf
  simp only [_dictKeyIndex]
  by_cases hE : (_dictExpandIfNeeded d).1 = DICT_ERR
  · rw [if_pos hE]
  · rw [if_neg hE]
    set d' := (_dictExpandIfNeeded d).2 with hd'
    have hpres' : presentKey d' key := by
      obtain ⟨e, he, hk⟩ := hpres
      exact ⟨e, by rw [e4]; exact he, hk⟩
    obtain ⟨en, hen, henk⟩ := hpres'
    rw [allEntries, List.mem_append] at hen
    have hpred : ∀ x : Entry, x.key = key →
        (key == x.key || d'.type.keyCompare key x.key) = true := by
      intro x hx
      rw [hx]
      simp
    rcases hen with hen | hen
    · obtain ⟨i, hi⟩ := mem_flatten_getD _ en hen
      have hieq : hashKey d.type key &&& d'.ht0.sizemask = i := by
        rw [← e1.wf0.place i en hi, e2, henk]
      rcases hm : findMatch d'.type key
          (d'.ht0.table.getD (hashKey d.type key &&& d'.ht0.sizemask) [])
        with _ | he
      · exfalso
        rw [findMatch, List.find?_eq_none] at hm
        exact hm en (by rw [hieq]; exact hi) (hpred en henk)
      · rfl
    · by_cases hreh : dictIsRehashing d' = true
      · rcases hm : findMatch d'.type key
            (d'.ht0.table.getD (hashKey d.type key &&& d'.ht0.sizemask) [])
          with _ | he
        · rw [if_pos hreh]
          obtain ⟨i, hi⟩ := mem_flatten_getD _ en hen
          have hieq : hashKey d.type key &&& d'.ht1.sizemask = i := by
            rw [← e1.wf1.place i en hi, e2, henk]
          rcases hm1 : findMatch d'.type key
              (d'.ht1.table.getD (hashKey d.type key &&& d'.ht1.sizemask) [])
            with _ | he1
          · exfalso
            rw [findMatch, List.find?_eq_none] at hm1
            exact hm1 en (by rw [hieq]; exact hi) (hpred en henk)
          · rfl
        · rfl
      · exfalso
        have hidle : d'.rehashidx = -1 := by
          revert hreh
          rw [dictIsRehashing]
          rcases d'.rehashidx with _ | _ <;> simp
        rw [e1.idle hidle] at hen
        simp [emptyHt] at hen

theorem removeFromChain_none (t : dictType) (key : Nat) (hcmp : eqCmp t) :
    ∀ c : List Entry, (∀ e ∈ c, e.key ≠ key) → removeFromChain t key c = none := by
  intro c
  induction c with
  | nil =>
    intro _
    rfl
  | cons he rest ih =>
    intro hall
    simp only [removeFromChain]
    have h1 : he.key ≠ key := hall he (by simp)
    have hb : (key == he.key || t.keyCompare key he.key) = false := by
      rw [hcmp key he.key, Bool.or_self, beq_eq_false_iff_ne]
      exact Ne.symm h1
    rw [if_neg (by simp [hb]),
      ih (fun e he' => hall e (List.mem_cons_of_mem _ he'))]

theorem dictGenericDelete_absent (d : dict) (key : Nat) (hwf : dictWF d)
    (hcmp : eqCmp d.type) (habs : ¬ presentKey d key) :
    (dictGenericDelete d key).1 = none ∧
    (allEntries (dictGenericDelete d key).2).Perm (allEntries d) := by
  simp only [dictGenericDelete]
  by_cases h0 : d.ht0.used = 0 ∧ d.ht1.used = 0
  · rw [if_pos h0]
    exact ⟨rfl, List.Perm.refl _⟩
  · rw [if_neg h0]
    obtain ⟨s1, s2, s3, s4, s5⟩ := rehashStepIf_spec d hwf
    set dS := if dictIsRehashing d = true then _dictRehashStep d else d with hdS
    have habs' : ¬ presentKey dS key := fun hp =>
      habs (by obtain ⟨e, he, hk⟩ := hp; exact ⟨e, s4.mem_iff.mp he, hk⟩)
    have hcmpS : eqCmp dS.type := by
      rw [s2]
      exact hcmp
    have hnone0 : removeFromChain dS.type key
        (dS.ht0.table.getD (dictHashKey dS key &&& dS.ht0.sizemask) []) = none := by
      refine removeFromChain_none dS.type key hcmpS _ ?_
      intro e he hk
      exact habs' ⟨e, List.mem_append_left _ (mem_getD_mem_flatten _ _ e he), hk⟩
    rw [hnone0]
    by_cases hreh : dictIsRehashing dS = true
    · rw [if_pos hreh]
      have hnone1 : removeFromChain dS.type key
          (dS.ht1.table.getD (dictHashKey dS key &&& dS.ht1.sizemask) []) = none := by
        refine removeFromChain_none dS.type key hcmpS _ ?_
        intro e he hk
        exact habs' ⟨e, List.mem_append_right _ (mem_getD_mem_flatten _ _ e he), hk⟩
      rw [hnone1]
      exact ⟨rfl, s4⟩
    · rw [if_neg hreh]
      exact ⟨rfl, s4⟩

theorem dictAddRaw_found (d : dict) (key val : Nat) (hwf : dictWF d)
    (hcmp : eqCmp d.type) (hpres : presentKey d key) :
    (dictAddRaw d key val).1 = none ∧
    (allEntries (dictAddRaw d key val).2.2).Perm (allEntries d) := by
  obtain ⟨s1, s2, s3, s4, s5⟩ := rehashStepIf_spec d hwf
  simp only [dictAddRaw]
  set dS := if dictIsRehashing d = true then _dictRehashStep d else d with hdS
  have hpresS : presentKey dS key := presentKey_of_perm s4 hpres
  have hcmpS : eqCmp dS.type := by
    rw [s2]
    exact hcmp
  obtain ⟨k1, k2, k3, k4, k5, k6, k7⟩ :=
    _dictKeyIndex_spec dS key (dictHashKey dS key) s1
  have hm1 : (_dictKeyIndex dS key (dictHashKey dS key)).1 = -1 :=
    _dictKeyIndex_found dS key s1 hcmpS hpresS
  rw [if_pos hm1]
  refine ⟨rfl, ?_⟩
  rw [k4]
  exact s4

/-- Claim C7 counterexample: on the rehashing dictionary `exDict3`,
inserting the already-present key `1` and removing the absent key `5`
BOTH return `DICT_ERR` — the two error codes are the same, not distinct —
and the insert mutates the dictionary (its embedded rehash step moves the
cursor from `0` to `2`). -/
theorem claim_C7_cex :
    (dictAdd exDict3 1 99).1 = DICT_ERR ∧
    (dictDelete exDict3 5).1 = DICT_ERR ∧
    DICT_ERR = DICT_ERR ∧
    (dictAdd exDict3 1 99).2.rehashidx ≠ exDict3.rehashidx := by decide

/-- Claim C7, amended: on a well-formed dictionary whose comparator is
key equality, inserting an already-present key and removing an absent key
each return the non-fatal code `DICT_ERR` — the SAME code for both, not
distinct ones — and neither operation adds or drops an entry: the entry
multiset is preserved exactly (up to the bucket migration performed by
the piggybacked rehash step). -/
theorem claim_C7 (d : dict) (key key' val : Nat) (hwf : dictWF d)
    (hcmp : eqCmp d.type) (hpres : presentKey d key)
    (habs : ¬ presentKey d key') :
    (dictAdd d key val).1 = DICT_ERR ∧
    (dictDelete d key').1 = DICT_ERR ∧
    (dictAdd d key val).1 = (dictDelete d key').1 ∧
    (allEntries (dictAdd d key val).2).Perm (allEntries d) ∧
    (allEntries (dictDelete d key').2).Perm (allEntries d) := by
  obtain ⟨ha1, ha2⟩ := dictAddRaw_found d key val hwf hcmp hpres
  obtain ⟨hd1, hd2⟩ := dictGenericDelete_absent d key' hwf hcmp habs
  have hadd : dictAdd d key val = (DICT_ERR, (dictAddRaw d key val).2.2) := by
    rw [dictAdd, ha1]
  have hdel : dictDelete d key' = (DICT_ERR, (dictGenericDelete d key').2) := by
    rw [dictDelete, hd1]
    rfl
  rw [hadd, hdel]
  exact ⟨rfl, rfl, rfl, ha2, hd2⟩

/-- Closed instance of `claim_C7`: `exDict2` with present key `1`, absent
key `5`. -/
theorem claim_C7_witness :
    eqCmp exType ∧ presentKey exDict2 1 ∧ ¬ presentKey exDict2 5 ∧
    ((dictAdd exDict2 1 99).1 = DICT_ERR ∧
     (dictDelete exDict2 5).1 = DICT_ERR ∧
     (dictAdd exDict2 1 99).1 = (dictDelete exDict2 5).1 ∧
     (allEntries (dictAdd exDict2 1 99).2).Perm (allEntries exDict2) ∧
     (allEntries (dictDelete exDict2 5).2).Perm (allEntries exDict2)) :=
  ⟨fun a b => rfl, ⟨⟨1, 10⟩, by decide, rfl⟩,
    by simp only [presentKey]; decide,
    claim_C7 exDict2 1 5 99 (runOps_wf exType [Op.add 1 10, Op.add 2 20])
      (fun a b => rfl) ⟨⟨1, 10⟩, by decide, rfl⟩
      (by simp only [presentKey]; decide)⟩


/-! ### The bit-reversal `rev`: bit-level characterization -/

theorem revStep_master (s M w : Nat) (hMlt : M < 2 ^ 64) (hw : w < 2 ^ 64)
    (hM : ∀ i, i < 64 → M.testBit i = decide (i &&& (2 * s) = 0))
    (hxor : ∀ i, i < 64 → (i ^^^ s) < 64 ∧
       (i &&& s = 0 → i ^^^ s = i + s) ∧
       (i &&& s ≠ 0 → (i ^^^ s) + s = i ∧ s ≤ i))
    (hmaskA : ∀ i, i < 64 →
       (xor (decide (i &&& (2 * s) = 0))
         (decide (s ≤ i) && decide ((i - s) &&& (2 * s) = 0))
        = decide (i &&& s = 0))) :
    (revStep s (M, w)).1 < 2 ^ 64 ∧
    (∀ i, i < 64 → (revStep s (M, w)).1.testBit i = decide (i &&& s = 0)) ∧
    (revStep s (M, w)).2 < 2 ^ 64 ∧
    (∀ i, i < 64 → (revStep s (M, w)).2.testBit i = w.testBit (i ^^^ s)) := by
  have hm64 : MASK64 = 2 ^ 64 - 1 := rfl
  have hmb : ∀ j : Nat, j < 64 → MASK64.testBit j = true := by decide
  set K := M ^^^ (M <<< s &&& MASK64) with hK
  have h1 : (revStep s (M, w)).1 = K := rfl
  have hM64lt : M <<< s &&& MASK64 < 2 ^ 64 := by
    have := Nat.and_le_right (n := M <<< s) (m := MASK64)
    omega
  have hmasklt : K < 2 ^ 64 := by
    rw [hK]
    exact Nat.xor_lt_two_pow hMlt hM64lt
  have hKbit : ∀ i, i < 64 → K.testBit i = decide (i &&& s = 0) := by
    intro i hi
    rw [hK, Nat.testBit_xor, Nat.testBit_and, Nat.testBit_shiftLeft,
      hM i hi, hmb i hi, Bool.and_true, hM (i - s) (by omega)]
    exact hmaskA i hi
  have h2 : (revStep s (M, w)).2
      = ((w >>> s) &&& K) ||| ((w <<< s) &&& MASK64 &&& (MASK64 ^^^ K)) := rfl
  have hterm1 : (w >>> s) &&& K < 2 ^ 64 := by
    have := Nat.and_le_right (n := w >>> s) (m := K)
    omega
  have hterm2 : (w <<< s) &&& MASK64 &&& (MASK64 ^^^ K) < 2 ^ 64 := by
    have h3 : MASK64 ^^^ K < 2 ^ 64 :=
      Nat.xor_lt_two_pow (by rw [hm64]; omega) hmasklt
    have := Nat.and_le_right (n := (w <<< s) &&& MASK64) (m := MASK64 ^^^ K)
    omega
  refine ⟨h1 ▸ hmasklt, h1 ▸ hKbit, h2 ▸ Nat.or_lt_two_pow hterm1 hterm2, ?_⟩
  intro i hi
  rw [h2]
  simp only [Nat.testBit_or, Nat.testBit_and, Nat.testBit_xor,
    Nat.testBit_shiftRight, Nat.testBit_shiftLeft]
  rw [hKbit i hi, hmb i hi]
  obtain ⟨hx1, hx2, hx3⟩ := hxor i hi
  by_cases hbs : i &&& s = 0
  · have he : i ^^^ s = i + s := hx2 hbs
    simp [hbs, he, Nat.add_comm s i]
  · obtain ⟨he, hsi⟩ := hx3 hbs
    have he' : i ^^^ s = i - s := by omega
    have hd2 : decide (s ≤ i) = true := by simp [hsi]
    simp [hbs, he', hd2]

theorem rev_lt_bits (v : Nat) :
    rev v < 2 ^ 64 ∧ ∀ i, i < 64 → (rev v).testBit i = v.testBit (63 - i) := by
  have hm64 : MASK64 = 2 ^ 64 - 1 := rfl
  have h0lt : v &&& MASK64 < 2 ^ 64 := by
    have := Nat.and_le_right (n := v) (m := MASK64)
    omega
  have h0bit : ∀ i, i < 64 → (v &&& MASK64).testBit i = v.testBit i := by
    intro i hi
    rw [Nat.testBit_and, hm64, Nat.testBit_two_pow_sub_one]
    simp [hi]
  obtain ⟨a1, a2, a3, a4⟩ := revStep_master 32 MASK64 (v &&& MASK64)
    (by rw [hm64]; omega) h0lt (by decide) (by decide) (by decide)
  obtain ⟨b1, b2, b3, b4⟩ := revStep_master 16
    (revStep 32 (MASK64, v &&& MASK64)).1 (revStep 32 (MASK64, v &&& MASK64)).2
    a1 a3 a2 (by decide) (by decide)
  obtain ⟨c1, c2, c3, c4⟩ := revStep_master 8
    (revStep 16 (revStep 32 (MASK64, v &&& MASK64))).1
    (revStep 16 (revStep 32 (MASK64, v &&& MASK64))).2
    b1 b3 b2 (by decide) (by decide)
  obtain ⟨d1, d2, d3, d4⟩ := revStep_master 4
    (revStep 8 (revStep 16 (revStep 32 (MASK64, v &&& MASK64)))).1
    (revStep 8 (revStep 16 (revStep 32 (MASK64, v &&& MASK64)))).2
    c1 c3 c2 (by decide) (by decide)
  obtain ⟨e1, e2, e3, e4⟩ := revStep_master 2
    (revStep 4 (revStep 8 (revStep 16 (revStep 32 (MASK64, v &&& MASK64))))).1
    (revStep 4 (revStep 8 (revStep 16 (revStep 32 (MASK64, v &&& MASK64))))).2
    d1 d3 d2 (by decide) (by decide)
  obtain ⟨f1, f2, f3, f4⟩ := revStep_master 1
    (revStep 2 (revStep 4 (revStep 8 (revStep 16
      (revStep 32 (MASK64, v &&& MASK64)))))).1
    (revStep 2 (revStep 4 (revStep 8 (revStep 16
      (revStep 32 (MASK64, v &&& MASK64)))))).2
    e1 e3 e2 (by decide) (by decide)
  have hrev : rev v = (revStep 1 (revStep 2 (revStep 4 (revStep 8 (revStep 16
      (revStep 32 (MASK64, v &&& MASK64))))))).2 := rfl
  have hx1 : ∀ i : Nat, i < 64 → i ^^^ 1 < 64 := by decide
  have hx2 : ∀ i : Nat, i < 64 → i ^^^ 1 ^^^ 2 < 64 := by decide
  have hx3 : ∀ i : Nat, i < 64 → i ^^^ 1 ^^^ 2 ^^^ 4 < 64 := by decide
  have hx4 : ∀ i : Nat, i < 64 → i ^^^ 1 ^^^ 2 ^^^ 4 ^^^ 8 < 64 := by decide
  have hx5 : ∀ i : Nat, i < 64 → i ^^^ 1 ^^^ 2 ^^^ 4 ^^^ 8 ^^^ 16 < 64 := by
    decide
  have hxall : ∀ i : Nat, i < 64 →
      i ^^^ 1 ^^^ 2 ^^^ 4 ^^^ 8 ^^^ 16 ^^^ 32 = 63 - i := by decide
  constructor
  · rw [hrev]
    exact f3
  · intro i hi
    rw [hrev, f4 i hi, e4 _ (hx1 i hi), d4 _ (hx2 i hi), c4 _ (hx3 i hi),
      b4 _ (hx4 i hi), a4 _ (hx5 i hi), hxall i hi, h0bit _ (by omega)]

theorem rev_lt (v : Nat) : rev v < 2 ^ 64 :=
  (rev_lt_bits v).1

theorem rev_testBit (v i : Nat) (hi : i < 64) :
    (rev v).testBit i = v.testBit (63 - i) :=
  (rev_lt_bits v).2 i hi

theorem rev_rev (v : Nat) (hv : v < 2 ^ 64) : rev (rev v) = v := by
  refine Nat.eq_of_testBit_eq fun i => ?_
  by_cases hi : i < 64
  · rw [rev_testBit _ i hi, rev_testBit _ (63 - i) (by omega),
      show 63 - (63 - i) = i by omega]
  · rw [Nat.testBit_lt_two_pow (lt_of_lt_of_le (rev_lt (rev v))
        (Nat.pow_le_pow_right (by norm_num) (by omega))),
      Nat.testBit_lt_two_pow (lt_of_lt_of_le hv
        (Nat.pow_le_pow_right (by norm_num) (by omega)))]


/-! ### The reverse cursor `scanStep` in reversed-bit space -/

theorem lt_div_succ_mul (a b : Nat) (hb : 0 < b) : a < (a / b + 1) * b := by
  have h1 := Nat.div_add_mod a b
  have h2 := Nat.mod_lt a hb
  calc a = b * (a / b) + a % b := h1.symm
    _ < b * (a / b) + b := by omega
    _ = (a / b + 1) * b := by ring

theorem mod_two_pow_eq_zero_iff (X c : Nat) :
    X % 2 ^ c = 0 ↔ ∀ i, i < c → X.testBit i = false := by
  constructor
  · intro h i hi
    have hb := Nat.testBit_mod_two_pow X c i
    rw [h, Nat.zero_testBit] at hb
    simp [hi] at hb
    exact hb
  · intro h
    refine Nat.eq_of_testBit_eq fun i => ?_
    rw [Nat.testBit_mod_two_pow, Nat.zero_testBit]
    by_cases hi : i < c
    · simp [hi, h i hi]
    · simp [hi]

theorem or_low_ones (Y c : Nat) :
    Y ||| (2 ^ c - 1) = 2 ^ c * (Y / 2 ^ c) + (2 ^ c - 1) := by
  refine Nat.eq_of_testBit_eq fun j => ?_
  rw [Nat.testBit_or, Nat.testBit_two_pow_sub_one,
    Nat.testBit_mul_pow_two_add (Y / 2 ^ c)
      (by have : 0 < 2 ^ c := Nat.pos_pow_of_pos c (by norm_num); omega) j]
  by_cases hj : j < c
  · simp [hj, Nat.testBit_two_pow_sub_one]
  · have hd : decide (j < c) = false := by simp [hj]
    rw [hd, Bool.or_false, if_neg hj,
      ← Nat.shiftRight_eq_div_pow, Nat.testBit_shiftRight,
      show c + (j - c) = j by omega]

theorem rev_or (a b : Nat) : rev (a ||| b) = rev a ||| rev b := by
  refine Nat.eq_of_testBit_eq fun j => ?_
  rw [Nat.testBit_or]
  by_cases hj : j < 64
  · rw [rev_testBit _ j hj, rev_testBit _ j hj, rev_testBit _ j hj,
      Nat.testBit_or]
  · have hle : (2 : Nat) ^ 64 ≤ 2 ^ j :=
      Nat.pow_le_pow_right (by norm_num) (by omega)
    rw [Nat.testBit_lt_two_pow (lt_of_lt_of_le (rev_lt _) hle),
      Nat.testBit_lt_two_pow (lt_of_lt_of_le (rev_lt _) hle),
      Nat.testBit_lt_two_pow (lt_of_lt_of_le (rev_lt _) hle)]
    rfl

theorem rev_mask_complement (k : Nat) (hk : k ≤ 64) :
    rev (MASK64 ^^^ (2 ^ k - 1)) = 2 ^ (64 - k) - 1 := by
  have hm64 : MASK64 = 2 ^ 64 - 1 := rfl
  refine Nat.eq_of_testBit_eq fun j => ?_
  by_cases hj : j < 64
  · rw [rev_testBit _ j hj, Nat.testBit_xor, hm64,
      Nat.testBit_two_pow_sub_one, Nat.testBit_two_pow_sub_one,
      Nat.testBit_two_pow_sub_one]
    have h1 : 63 - j < 64 := by omega
    by_cases h2 : j < 64 - k
    · have h3 : ¬ (63 - j < k) := by omega
      simp [h1, h2, h3]
    · have h3 : 63 - j < k := by omega
      simp [h1, h2, h3]
  · have hle : (2 : Nat) ^ 64 ≤ 2 ^ j :=
      Nat.pow_le_pow_right (by norm_num) (by omega)
    rw [Nat.testBit_lt_two_pow (lt_of_lt_of_le (rev_lt _) hle),
      Nat.testBit_two_pow_sub_one]
    have : ¬ (j < 64 - k) := by omega
    simp [this]

theorem scanStep_lt (v m : Nat) : scanStep v m < 2 ^ 64 :=
  rev_lt _

theorem scanStep_rev (v k : Nat) (hk1 : 1 ≤ k) (hk : k ≤ 64) :
    rev (scanStep v (2 ^ k - 1))
      = (rev v / 2 ^ (64 - k) + 1) * 2 ^ (64 - k) % 2 ^ 64 := by
  have hm64 : MASK64 = 2 ^ 64 - 1 := rfl
  have hposc : 0 < 2 ^ (64 - k) := Nat.pos_pow_of_pos _ (by norm_num)
  have hXlt : (rev (v ||| (MASK64 ^^^ (2 ^ k - 1))) + 1) &&& MASK64 < 2 ^ 64 := by
    have := Nat.and_le_right
      (n := rev (v ||| (MASK64 ^^^ (2 ^ k - 1))) + 1) (m := MASK64)
    omega
  rw [scanStep, rev_rev _ hXlt]
  rw [show ∀ x : Nat, x &&& MASK64 = x % 2 ^ 64 from
    fun x => Nat.and_pow_two_sub_one_eq_mod x 64]
  rw [rev_or, rev_mask_complement k hk, or_low_ones]
  have : 2 ^ (64 - k) * (rev v / 2 ^ (64 - k)) + (2 ^ (64 - k) - 1) + 1
      = (rev v / 2 ^ (64 - k) + 1) * 2 ^ (64 - k) := by
    have h1 : 0 < 2 ^ (64 - k) := hposc
    calc 2 ^ (64 - k) * (rev v / 2 ^ (64 - k)) + (2 ^ (64 - k) - 1) + 1
        = 2 ^ (64 - k) * (rev v / 2 ^ (64 - k)) + 2 ^ (64 - k) := by omega
      _ = (rev v / 2 ^ (64 - k) + 1) * 2 ^ (64 - k) := by ring
  rw [this]

theorem bucket_eq_of_rev_div (h v k : Nat) (hk : k ≤ 64)
    (hdiv : rev h / 2 ^ (64 - k) = rev v / 2 ^ (64 - k)) :
    h &&& (2 ^ k - 1) = v &&& (2 ^ k - 1) := by
  refine Nat.eq_of_testBit_eq fun j => ?_
  rw [Nat.testBit_and, Nat.testBit_and, Nat.testBit_two_pow_sub_one]
  by_cases hj : j < k
  · have hjj : j < 64 := by omega
    have h1 : ∀ x : Nat, x.testBit j
        = (rev x / 2 ^ (64 - k)).testBit (63 - j - (64 - k)) := by
      intro x
      rw [← Nat.shiftRight_eq_div_pow, Nat.testBit_shiftRight,
        show 64 - k + (63 - j - (64 - k)) = 63 - j by omega,
        rev_testBit x (63 - j) (by omega),
        show 63 - (63 - j) = j by omega]
    rw [h1 h, h1 v, hdiv]
  · simp [hj]

theorem and_eq_zero_iff_testBit (a b : Nat) :
    a &&& b = 0 ↔ ∀ j, (a.testBit j && b.testBit j) = false := by
  constructor
  · intro h j
    have := congrArg (fun x => Nat.testBit x j) h
    simpa [Nat.testBit_and, Nat.zero_testBit] using this
  · intro h
    refine Nat.eq_of_testBit_eq fun j => ?_
    rw [Nat.testBit_and, Nat.zero_testBit, h j]

theorem exit_iff (w k0 k1 : Nat) (h01 : k0 < k1) (hk1 : k1 ≤ 63)
    (halign : rev w % 2 ^ (64 - k1) = 0) :
    w &&& ((2 ^ k0 - 1) ^^^ (2 ^ k1 - 1)) = 0 ↔
      rev w % 2 ^ (64 - k0) = 0 := by
  have hwd : ∀ j, j < 64 → w.testBit j = (rev w).testBit (63 - j) := by
    intro j hj
    rw [rev_testBit w (63 - j) (by omega), show 63 - (63 - j) = j by omega]
  have hmdiff : ∀ j, ((2 ^ k0 - 1) ^^^ (2 ^ k1 - 1)).testBit j
      = decide (k0 ≤ j ∧ j < k1) := by
    intro j
    rw [Nat.testBit_xor, Nat.testBit_two_pow_sub_one,
      Nat.testBit_two_pow_sub_one]
    by_cases h1 : j < k0
    · have h2 : j < k1 := by omega
      have h3 : ¬ (k0 ≤ j ∧ j < k1) := by omega
      simp [h1, h2, h3]
    · by_cases h2 : j < k1
      · have h3 : k0 ≤ j ∧ j < k1 := by omega
        simp [h1, h2, h3]
      · have h3 : ¬ (k0 ≤ j ∧ j < k1) := by omega
        simp [h1, h2, h3]
  rw [and_eq_zero_iff_testBit, mod_two_pow_eq_zero_iff]
  have hrev1 := (mod_two_pow_eq_zero_iff (rev w) (64 - k1)).mp halign
  constructor
  · intro h i hi
    by_cases hlow : i < 64 - k1
    · exact hrev1 i hlow
    · have hj := h (63 - i)
      rw [hmdiff] at hj
      have hd : decide (k0 ≤ 63 - i ∧ 63 - i < k1) = true := by
        have : k0 ≤ 63 - i ∧ 63 - i < k1 := by omega
        simp [this]
      rw [hd, Bool.and_true] at hj
      have := hwd (63 - i) (by omega)
      rw [show 63 - (63 - i) = i by omega] at this
      rw [← this]
      exact hj
  · intro h j
    rw [hmdiff]
    by_cases hj : k0 ≤ j ∧ j < k1
    · have hj64 : j < 64 := by omega
      rw [hwd j hj64, h (63 - j) (by omega)]
      simp
    · simp [hj]


/-! ### The rehashing-branch expansion loop of `dictScan` -/

theorem scanExpansions_master (t1 : dictht) (k0 k1 : Nat)
    (hk0 : 1 ≤ k0) (h01 : k0 < k1) (hk1 : k1 ≤ 63) :
    ∀ fuel : Nat, ∀ w : Nat, ∀ acc : List Entry,
      w < 2 ^ 64 →
      rev w / 2 ^ (64 - k0) * 2 ^ (64 - k0) + 2 ^ (64 - k0)
        ≤ rev w / 2 ^ (64 - k1) * 2 ^ (64 - k1) + fuel * 2 ^ (64 - k1) →
      (∀ x, x ∈ acc →
        x ∈ (scanExpansions t1 (2 ^ k0 - 1) (2 ^ k1 - 1) fuel w acc).1) ∧
      (∀ h e, rev w / 2 ^ (64 - k1) * 2 ^ (64 - k1) ≤ rev h →
        rev h < rev w / 2 ^ (64 - k0) * 2 ^ (64 - k0) + 2 ^ (64 - k0) →
        e ∈ t1.table.getD (h &&& (2 ^ k1 - 1)) [] →
        e ∈ (scanExpansions t1 (2 ^ k0 - 1) (2 ^ k1 - 1) fuel w acc).1) ∧
      rev (scanExpansions t1 (2 ^ k0 - 1) (2 ^ k1 - 1) fuel w acc).2
        = (rev w / 2 ^ (64 - k0) * 2 ^ (64 - k0) + 2 ^ (64 - k0)) % 2 ^ 64 ∧
      (scanExpansions t1 (2 ^ k0 - 1) (2 ^ k1 - 1) fuel w acc).2 < 2 ^ 64 := by
  have hc0pos : 0 < (2 : Nat) ^ (64 - k0) := Nat.pos_pow_of_pos _ (by norm_num)
  have hc1pos : 0 < (2 : Nat) ^ (64 - k1) := Nat.pos_pow_of_pos _ (by norm_num)
  have hsplit : (2 : Nat) ^ (64 - k0) = 2 ^ (k1 - k0) * 2 ^ (64 - k1) := by
    rw [← pow_add]
    congr 1
    omega
  have hfull0 : (2 : Nat) ^ k0 * 2 ^ (64 - k0) = 2 ^ 64 := by
    rw [← pow_add]
    congr 1
    omega
  have hfull1 : (2 : Nat) ^ k1 * 2 ^ (64 - k1) = 2 ^ 64 := by
    rw [← pow_add]
    congr 1
    omega
  intro fuel
  induction fuel with
  | zero =>
    intro w acc hw hfuel
    exfalso
    have h1 : rev w / 2 ^ (64 - k1) * 2 ^ (64 - k1) ≤ rev w :=
      Nat.div_mul_le_self _ _
    have h2 : rev w < (rev w / 2 ^ (64 - k0) + 1) * 2 ^ (64 - k0) :=
      lt_div_succ_mul _ _ hc0pos
    have h3 : (rev w / 2 ^ (64 - k0) + 1) * 2 ^ (64 - k0)
        = rev w / 2 ^ (64 - k0) * 2 ^ (64 - k0) + 2 ^ (64 - k0) := by ring
    omega
  | succ fuel ih =>
    intro w acc hw hfuel
    have hY64 : rev w < 2 ^ 64 := rev_lt w
    have hrv : rev (scanStep w (2 ^ k1 - 1))
        = (rev w / 2 ^ (64 - k1) + 1) * 2 ^ (64 - k1) % 2 ^ 64 :=
      scanStep_rev w k1 (by omega) (by omega)
    have hv'lt : scanStep w (2 ^ k1 - 1) < 2 ^ 64 := scanStep_lt _ _
    have hqB : (rev w / 2 ^ (64 - k1) + 1) * 2 ^ (64 - k1)
        = rev w / 2 ^ (64 - k1) * 2 ^ (64 - k1) + 2 ^ (64 - k1) := by ring
    have hdivlt1 : rev w / 2 ^ (64 - k1) < 2 ^ k1 :=
      (Nat.div_lt_iff_lt_mul hc1pos).mpr (by rw [hfull1]; exact hY64)
    have hBle64 : (rev w / 2 ^ (64 - k1) + 1) * 2 ^ (64 - k1) ≤ 2 ^ 64 := by
      calc (rev w / 2 ^ (64 - k1) + 1) * 2 ^ (64 - k1)
          ≤ 2 ^ k1 * 2 ^ (64 - k1) :=
            Nat.mul_le_mul_right _ (by omega)
        _ = 2 ^ 64 := hfull1
    have hAle : rev w / 2 ^ (64 - k0) * 2 ^ (64 - k0) ≤ rev w :=
      Nat.div_mul_le_self _ _
    have hAub : rev w < rev w / 2 ^ (64 - k0) * 2 ^ (64 - k0) + 2 ^ (64 - k0) := by
      have h2 := lt_div_succ_mul (rev w) _ hc0pos
      have h3 : (rev w / 2 ^ (64 - k0) + 1) * 2 ^ (64 - k0)
          = rev w / 2 ^ (64 - k0) * 2 ^ (64 - k0) + 2 ^ (64 - k0) := by ring
      omega
    have hdivlt0 : rev w / 2 ^ (64 - k0) < 2 ^ k0 :=
      (Nat.div_lt_iff_lt_mul hc0pos).mpr (by rw [hfull0]; exact hY64)
    have hABle64 : rev w / 2 ^ (64 - k0) * 2 ^ (64 - k0) + 2 ^ (64 - k0)
        ≤ 2 ^ 64 := by
      calc rev w / 2 ^ (64 - k0) * 2 ^ (64 - k0) + 2 ^ (64 - k0)
          = (rev w / 2 ^ (64 - k0) + 1) * 2 ^ (64 - k0) := by ring
        _ ≤ 2 ^ k0 * 2 ^ (64 - k0) := Nat.mul_le_mul_right _ (by omega)
        _ = 2 ^ 64 := hfull0
    have hBgt : rev w < (rev w / 2 ^ (64 - k1) + 1) * 2 ^ (64 - k1) :=
      lt_div_succ_mul _ _ hc1pos
    have hApc0mult : rev w / 2 ^ (64 - k0) * 2 ^ (64 - k0) + 2 ^ (64 - k0)
        = (rev w / 2 ^ (64 - k0) * 2 ^ (k1 - k0) + 2 ^ (k1 - k0))
          * 2 ^ (64 - k1) := by
      rw [hsplit]
      ring
    have hBle : (rev w / 2 ^ (64 - k1) + 1) * 2 ^ (64 - k1)
        ≤ rev w / 2 ^ (64 - k0) * 2 ^ (64 - k0) + 2 ^ (64 - k0) := by
      rw [hApc0mult]
      refine Nat.mul_le_mul_right _ ?_
      have : rev w / 2 ^ (64 - k1)
          < rev w / 2 ^ (64 - k0) * 2 ^ (k1 - k0) + 2 ^ (k1 - k0) :=
        (Nat.div_lt_iff_lt_mul hc1pos).mpr (by rw [← hApc0mult]; exact hAub)
      omega
    have halignv' : rev (scanStep w (2 ^ k1 - 1)) % 2 ^ (64 - k1) = 0 := by
      rw [hrv, Nat.mod_mod_of_dvd _ ⟨2 ^ k1, by rw [← hfull1]; ring⟩,
        Nat.mul_mod_left]
    simp only [scanExpansions]
    by_cases hc : scanStep w (2 ^ k1 - 1) &&& ((2 ^ k0 - 1) ^^^ (2 ^ k1 - 1)) = 0
    · rw [if_neg (fun hn => hn hc)]
      have hg0 : rev (scanStep w (2 ^ k1 - 1)) % 2 ^ (64 - k0) = 0 :=
        (exit_iff _ k0 k1 h01 hk1 halignv').mp hc
      have hBeq : (rev w / 2 ^ (64 - k1) + 1) * 2 ^ (64 - k1)
          = rev w / 2 ^ (64 - k0) * 2 ^ (64 - k0) + 2 ^ (64 - k0) := by
        by_cases hB64 : (rev w / 2 ^ (64 - k1) + 1) * 2 ^ (64 - k1) = 2 ^ 64
        · omega
        · have hBlt : (rev w / 2 ^ (64 - k1) + 1) * 2 ^ (64 - k1) < 2 ^ 64 := by
            omega
          rw [Nat.mod_eq_of_lt hBlt] at hrv
          rw [hrv] at hg0
          obtain ⟨b, hb⟩ := Nat.dvd_of_mod_eq_zero hg0
          have hblow : rev w / 2 ^ (64 - k0) * 2 ^ (64 - k0)
              < 2 ^ (64 - k0) * b := by omega
          have hbhigh : 2 ^ (64 - k0) * b
              ≤ rev w / 2 ^ (64 - k0) * 2 ^ (64 - k0) + 2 ^ (64 - k0) := by omega
          have hblow' : rev w / 2 ^ (64 - k0) < b := by
            have := Nat.lt_of_mul_lt_mul_left
              (a := 2 ^ (64 - k0)) (b := rev w / 2 ^ (64 - k0)) (c := b)
              (by calc 2 ^ (64 - k0) * (rev w / 2 ^ (64 - k0))
                    = rev w / 2 ^ (64 - k0) * 2 ^ (64 - k0) := by ring
                  _ < 2 ^ (64 - k0) * b := hblow)
            exact this
          have hbhigh' : b ≤ rev w / 2 ^ (64 - k0) + 1 := by
            by_contra hcon
            have h5 : rev w / 2 ^ (64 - k0) + 2 ≤ b := by omega
            have h6 : 2 ^ (64 - k0) * (rev w / 2 ^ (64 - k0) + 2)
                ≤ 2 ^ (64 - k0) * b := Nat.mul_le_mul_left _ h5
            have h7 : 2 ^ (64 - k0) * (rev w / 2 ^ (64 - k0) + 2)
                = rev w / 2 ^ (64 - k0) * 2 ^ (64 - k0) + 2 ^ (64 - k0)
                  + 2 ^ (64 - k0) := by ring
            omega
          have hbeq : b = rev w / 2 ^ (64 - k0) + 1 := by omega
          rw [hb, hbeq]
          ring
      refine ⟨?_, ?_, ?_, ?_⟩
      · intro x hx
        exact List.mem_append_left _ hx
      · intro h e hlo hhi hmem
        have hdiv : rev h / 2 ^ (64 - k1) = rev w / 2 ^ (64 - k1) :=
          Nat.div_eq_of_lt_le hlo (by rw [← hBeq] at hhi; exact hhi)
        have hbk : h &&& (2 ^ k1 - 1) = w &&& (2 ^ k1 - 1) :=
          bucket_eq_of_rev_div h w k1 (by omega) hdiv
        rw [hbk] at hmem
        exact List.mem_append_right _ hmem
      · rw [hrv, hBeq]
      · exact hv'lt
    · rw [if_pos hc]
      have hnotg0 : ¬ rev (scanStep w (2 ^ k1 - 1)) % 2 ^ (64 - k0) = 0 :=
        fun hg => hc ((exit_iff _ k0 k1 h01 hk1 halignv').mpr hg)
      have hBlt : (rev w / 2 ^ (64 - k1) + 1) * 2 ^ (64 - k1) < 2 ^ 64 := by
        rcases Nat.lt_or_ge ((rev w / 2 ^ (64 - k1) + 1) * 2 ^ (64 - k1))
            (2 ^ 64) with h | h
        · exact h
        · exfalso
          have hB64 : (rev w / 2 ^ (64 - k1) + 1) * 2 ^ (64 - k1) = 2 ^ 64 := by
            omega
          rw [hB64, Nat.mod_self] at hrv
          rw [hrv] at hnotg0
          exact hnotg0 (Nat.zero_mod _)
      have hrv' : rev (scanStep w (2 ^ k1 - 1))
          = (rev w / 2 ^ (64 - k1) + 1) * 2 ^ (64 - k1) := by
        rw [hrv, Nat.mod_eq_of_lt hBlt]
      have hBne : (rev w / 2 ^ (64 - k1) + 1) * 2 ^ (64 - k1)
          ≠ rev w / 2 ^ (64 - k0) * 2 ^ (64 - k0) + 2 ^ (64 - k0) := by
        intro hEq
        apply hnotg0
        rw [hrv', hEq]
        have : rev w / 2 ^ (64 - k0) * 2 ^ (64 - k0) + 2 ^ (64 - k0)
            = (rev w / 2 ^ (64 - k0) + 1) * 2 ^ (64 - k0) := by ring
        rw [this, Nat.mul_mod_left]
      have hsame : rev (scanStep w (2 ^ k1 - 1)) / 2 ^ (64 - k0)
          = rev w / 2 ^ (64 - k0) := by
        refine Nat.div_eq_of_lt_le ?_ ?_
        · rw [hrv']
          omega
        · rw [hrv']
          have : (rev w / 2 ^ (64 - k0) + 1) * 2 ^ (64 - k0)
              = rev w / 2 ^ (64 - k0) * 2 ^ (64 - k0) + 2 ^ (64 - k0) := by ring
          omega
      have halignv'' : rev (scanStep w (2 ^ k1 - 1)) / 2 ^ (64 - k1)
            * 2 ^ (64 - k1)
          = (rev w / 2 ^ (64 - k1) + 1) * 2 ^ (64 - k1) := by
        rw [hrv', Nat.mul_div_cancel _ hc1pos]
      have hfuel' : rev (scanStep w (2 ^ k1 - 1)) / 2 ^ (64 - k0)
            * 2 ^ (64 - k0) + 2 ^ (64 - k0)
          ≤ rev (scanStep w (2 ^ k1 - 1)) / 2 ^ (64 - k1) * 2 ^ (64 - k1)
            + fuel * 2 ^ (64 - k1) := by
        rw [hsame, halignv'']
        have hexp : (fuel + 1) * 2 ^ (64 - k1)
            = fuel * 2 ^ (64 - k1) + 2 ^ (64 - k1) := by ring
        omega
      obtain ⟨i1, i2, i3, i4⟩ := ih (scanStep w (2 ^ k1 - 1))
        (acc ++ t1.table.getD (w &&& (2 ^ k1 - 1)) []) hv'lt hfuel'
      refine ⟨?_, ?_, ?_, ?_⟩
      · intro x hx
        exact i1 x (List.mem_append_left _ hx)
      · intro h e hlo hhi hmem
        by_cases hwhich : rev h < (rev w / 2 ^ (64 - k1) + 1) * 2 ^ (64 - k1)
        · have hdiv : rev h / 2 ^ (64 - k1) = rev w / 2 ^ (64 - k1) :=
            Nat.div_eq_of_lt_le hlo hwhich
          have hbk : h &&& (2 ^ k1 - 1) = w &&& (2 ^ k1 - 1) :=
            bucket_eq_of_rev_div h w k1 (by omega) hdiv
          rw [hbk] at hmem
          exact i1 e (List.mem_append_right _ hmem)
        · refine i2 h e ?_ ?_ hmem
          · rw [halignv'']
            omega
          · rw [hsame]
            exact hhi
      · rw [i3, hsame]
      · exact i4


/-! ### One `dictScan` call: cursor advance and bucket coverage -/

theorem not_rehashing_idle (d : dict) (h : dictIsRehashing d = false) :
    d.rehashidx = -1 := by
  revert h
  rw [dictIsRehashing]
  rcases d.rehashidx with _ | n <;> simp

theorem htWF_size_ne_zero (t : dictType) (ht : dictht) (hwf : htWF t ht)
    (hused : ht.used ≠ 0) : ht.size ≠ 0 := by
  intro hc
  apply hused
  rw [hwf.cnt, htCount]
  have hlen : ht.table.length = 0 := by rw [hwf.len, hc]
  rw [List.eq_nil_of_length_eq_zero hlen]
  rfl

theorem scan_rehash_branch (tp : dictType) (t0 t1 : dictht) (v k0 k1 : Nat)
    (hwf0 : htWF tp t0) (hwf1 : htWF tp t1)
    (hs0 : t0.size = 2 ^ k0) (hs1 : t1.size = 2 ^ k1)
    (hk0 : 2 ≤ k0) (h01 : k0 < k1) (hk1 : k1 ≤ 63) (hv : v < 2 ^ 64) :
    ∃ W : Nat,
      rev v < W ∧ W ≤ 2 ^ 64 ∧
      rev (scanExpansions t1 t0.sizemask t1.sizemask t1.size v
        (t0.table.getD (v &&& t0.sizemask) [])).2 = W % 2 ^ 64 ∧
      (scanExpansions t1 t0.sizemask t1.sizemask t1.size v
        (t0.table.getD (v &&& t0.sizemask) [])).2 < 2 ^ 64 ∧
      (∀ e, e ∈ t0.table.flatten →
        rev v ≤ rev (hashKey tp e.key) → rev (hashKey tp e.key) < W →
        e ∈ (scanExpansions t1 t0.sizemask t1.sizemask t1.size v
          (t0.table.getD (v &&& t0.sizemask) [])).1) ∧
      (∀ e, e ∈ t1.table.flatten →
        rev v ≤ rev (hashKey tp e.key) → rev (hashKey tp e.key) < W →
        e ∈ (scanExpansions t1 t0.sizemask t1.sizemask t1.size v
          (t0.table.getD (v &&& t0.sizemask) [])).1) := by
  have hc0pos : 0 < (2 : Nat) ^ (64 - k0) := Nat.pos_pow_of_pos _ (by norm_num)
  have hc1pos : 0 < (2 : Nat) ^ (64 - k1) := Nat.pos_pow_of_pos _ (by norm_num)
  have hfull0 : (2 : Nat) ^ k0 * 2 ^ (64 - k0) = 2 ^ 64 := by
    rw [← pow_add]
    congr 1
    omega
  have hfull1 : (2 : Nat) ^ k1 * 2 ^ (64 - k1) = 2 ^ 64 := by
    rw [← pow_add]
    congr 1
    omega
  have hY64 : rev v < 2 ^ 64 := rev_lt v
  have hAle : rev v / 2 ^ (64 - k0) * 2 ^ (64 - k0) ≤ rev v :=
    Nat.div_mul_le_self _ _
  have hAub : rev v < rev v / 2 ^ (64 - k0) * 2 ^ (64 - k0) + 2 ^ (64 - k0) := by
    have h2 := lt_div_succ_mul (rev v) _ hc0pos
    have h3 : (rev v / 2 ^ (64 - k0) + 1) * 2 ^ (64 - k0)
        = rev v / 2 ^ (64 - k0) * 2 ^ (64 - k0) + 2 ^ (64 - k0) := by ring
    omega
  have hdivlt0 : rev v / 2 ^ (64 - k0) < 2 ^ k0 :=
    (Nat.div_lt_iff_lt_mul hc0pos).mpr (by rw [hfull0]; exact hY64)
  have hABle64 : rev v / 2 ^ (64 - k0) * 2 ^ (64 - k0) + 2 ^ (64 - k0)
      ≤ 2 ^ 64 := by
    calc rev v / 2 ^ (64 - k0) * 2 ^ (64 - k0) + 2 ^ (64 - k0)
        = (rev v / 2 ^ (64 - k0) + 1) * 2 ^ (64 - k0) := by ring
      _ ≤ 2 ^ k0 * 2 ^ (64 - k0) := Nat.mul_le_mul_right _ (by omega)
      _ = 2 ^ 64 := hfull0
  have hm0 : t0.sizemask = 2 ^ k0 - 1 := by rw [hwf0.mask, hs0]
  have hm1 : t1.sizemask = 2 ^ k1 - 1 := by rw [hwf1.mask, hs1]
  rw [hm0, hm1, hs1]
  have hfuel : rev v / 2 ^ (64 - k0) * 2 ^ (64 - k0) + 2 ^ (64 - k0)
      ≤ rev v / 2 ^ (64 - k1) * 2 ^ (64 - k1) + 2 ^ k1 * 2 ^ (64 - k1) := by
    rw [hfull1]
    omega
  obtain ⟨i1, i2, i3, i4⟩ := scanExpansions_master t1 k0 k1 (by omega) h01 hk1
    (2 ^ k1) v (t0.table.getD (v &&& (2 ^ k0 - 1)) []) hv hfuel
  refine ⟨rev v / 2 ^ (64 - k0) * 2 ^ (64 - k0) + 2 ^ (64 - k0),
    hAub, hABle64, i3, i4, ?_, ?_⟩
  · intro e he hlo hhi
    obtain ⟨i, hi⟩ := mem_flatten_getD _ e he
    have hplace := hwf0.place i e hi
    rw [hm0] at hplace
    have hdiv : rev (hashKey tp e.key) / 2 ^ (64 - k0) = rev v / 2 ^ (64 - k0) :=
      Nat.div_eq_of_lt_le (by omega)
        (by have h3 : (rev v / 2 ^ (64 - k0) + 1) * 2 ^ (64 - k0)
              = rev v / 2 ^ (64 - k0) * 2 ^ (64 - k0) + 2 ^ (64 - k0) := by ring
            omega)
    have hbk : hashKey tp e.key &&& (2 ^ k0 - 1) = v &&& (2 ^ k0 - 1) :=
      bucket_eq_of_rev_div _ v k0 (by omega) hdiv
    have hieq : v &&& (2 ^ k0 - 1) = i := by
      rw [← hbk]
      exact hplace
    exact i1 e (by rw [hieq]; exact hi)
  · intro e he hlo hhi
    obtain ⟨i, hi⟩ := mem_flatten_getD _ e he
    have hplace := hwf1.place i e hi
    rw [hm1] at hplace
    refine i2 (hashKey tp e.key) e ?_ ?_ ?_
    · have := Nat.div_mul_le_self (rev v) (2 ^ (64 - k1))
      omega
    · exact hhi
    · rw [hplace]
      exact hi


theorem dictScan_call (d : dict) (v : Nat) (hwf : dictWF d) (hv : v < 2 ^ 64)
    (hsz : dictSize d ≠ 0) :
    ∃ W : Nat, rev v < W ∧ W ≤ 2 ^ 64 ∧
      rev (dictScan d v).2 = W % 2 ^ 64 ∧ (dictScan d v).2 < 2 ^ 64 ∧
      (∀ e, e ∈ allEntries d → rev v ≤ rev (hashKey d.type e.key) →
        rev (hashKey d.type e.key) < W → e ∈ (dictScan d v).1) := by
  simp only [dictScan]
  rw [if_neg hsz]
  by_cases hreh : dictIsRehashing d = false
  · rw [if_pos hreh]
    have hidle := hwf.idle (not_rehashing_idle d hreh)
    have hused1 : d.ht1.used = 0 := by rw [hidle]; rfl
    have hused0 : d.ht0.used ≠ 0 := by
      rw [dictSize] at hsz
      omega
    have hs0ne : d.ht0.size ≠ 0 := htWF_size_ne_zero d.type d.ht0 hwf.wf0 hused0
    obtain ⟨k, hk2, hk63, hsk⟩ := hwf.wf0.pow.resolve_left hs0ne
    have hm0 : d.ht0.sizemask = 2 ^ k - 1 := by rw [hwf.wf0.mask, hsk]
    rw [hm0]
    have hc0pos : 0 < (2 : Nat) ^ (64 - k) := Nat.pos_pow_of_pos _ (by norm_num)
    have hfull0 : (2 : Nat) ^ k * 2 ^ (64 - k) = 2 ^ 64 := by
      rw [← pow_add]
      congr 1
      omega
    have hY64 : rev v < 2 ^ 64 := rev_lt v
    have hAle : rev v / 2 ^ (64 - k) * 2 ^ (64 - k) ≤ rev v :=
      Nat.div_mul_le_self _ _
    have hring : (rev v / 2 ^ (64 - k) + 1) * 2 ^ (64 - k)
        = rev v / 2 ^ (64 - k) * 2 ^ (64 - k) + 2 ^ (64 - k) := by ring
    have hAub : rev v < rev v / 2 ^ (64 - k) * 2 ^ (64 - k) + 2 ^ (64 - k) := by
      have h2 := lt_div_succ_mul (rev v) _ hc0pos
      omega
    have hdivlt0 : rev v / 2 ^ (64 - k) < 2 ^ k :=
      (Nat.div_lt_iff_lt_mul hc0pos).mpr (by rw [hfull0]; exact hY64)
    have hABle64 : rev v / 2 ^ (64 - k) * 2 ^ (64 - k) + 2 ^ (64 - k)
        ≤ 2 ^ 64 := by
      calc rev v / 2 ^ (64 - k) * 2 ^ (64 - k) + 2 ^ (64 - k)
          = (rev v / 2 ^ (64 - k) + 1) * 2 ^ (64 - k) := hring.symm
        _ ≤ 2 ^ k * 2 ^ (64 - k) := Nat.mul_le_mul_right _ (by omega)
        _ = 2 ^ 64 := hfull0
    refine ⟨rev v / 2 ^ (64 - k) * 2 ^ (64 - k) + 2 ^ (64 - k),
      hAub, hABle64, ?_, scanStep_lt _ _, ?_⟩
    · rw [scanStep_rev v k (by omega) (by omega), hring]
    · intro e he hlo hhi
      rw [allEntries, hidle, List.mem_append] at he
      rcases he with he | he
      · obtain ⟨i, hi⟩ := mem_flatten_getD _ e he
        have hplace := hwf.wf0.place i e hi
        rw [hm0] at hplace
        have hdiv : rev (hashKey d.type e.key) / 2 ^ (64 - k)
            = rev v / 2 ^ (64 - k) :=
          Nat.div_eq_of_lt_le (by omega) (by omega)
        have hbk : hashKey d.type e.key &&& (2 ^ k - 1) = v &&& (2 ^ k - 1) :=
          bucket_eq_of_rev_div _ v k (by omega) hdiv
        have hieq : v &&& (2 ^ k - 1) = i := by
          rw [← hbk]
          exact hplace
        rw [hieq]
        exact hi
      · simp [emptyHt] at he
  · rw [if_neg hreh]
    have hrehT : dictIsRehashing d = true := by
      revert hreh
      cases dictIsRehashing d <;> simp
    obtain ⟨-, hs0ne, hs1ne, hsne⟩ := hwf.reh (by simpa [dictIsRehashing] using hrehT)
    obtain ⟨a0, ha02, ha063, hsa0⟩ := hwf.wf0.pow.resolve_left hs0ne
    obtain ⟨a1, ha12, ha163, hsa1⟩ := hwf.wf1.pow.resolve_left hs1ne
    by_cases hgt : d.ht0.size > d.ht1.size
    · rw [if_pos hgt]
      have h01 : a1 < a0 := by
        rw [hsa0, hsa1] at hgt
        exact (Nat.pow_lt_pow_iff_right (by norm_num)).mp hgt
      obtain ⟨W, p1, p2, p3, p4, p5, p6⟩ := scan_rehash_branch d.type
        d.ht1 d.ht0 v a1 a0 hwf.wf1 hwf.wf0 hsa1 hsa0 ha12 h01 (by omega) hv
      refine ⟨W, p1, p2, p3, p4, ?_⟩
      intro e he hlo hhi
      rw [allEntries, List.mem_append] at he
      rcases he with he | he
      · exact p6 e he hlo hhi
      · exact p5 e he hlo hhi
    · rw [if_neg hgt]
      have h01 : a0 < a1 := by
        have hlt : d.ht0.size < d.ht1.size := by
          rcases Nat.lt_or_ge d.ht0.size d.ht1.size with h | h
          · exact h
          · exact absurd (by omega : d.ht0.size = d.ht1.size) hsne
        rw [hsa0, hsa1] at hlt
        exact (Nat.pow_lt_pow_iff_right (by norm_num)).mp hlt
      obtain ⟨W, p1, p2, p3, p4, p5, p6⟩ := scan_rehash_branch d.type
        d.ht0 d.ht1 v a0 a1 hwf.wf0 hwf.wf1 hsa0 hsa1 ha02 h01 (by omega) hv
      refine ⟨W, p1, p2, p3, p4, ?_⟩
      intro e he hlo hhi
      rw [allEntries, List.mem_append] at he
      rcases he with he | he
      · exact p5 e he hlo hhi
      · exact p6 e he hlo hhi


/-! ### The scan traversal guarantee -/

theorem presentKeyB_iff (d : dict) (key : Nat) :
    presentKeyB d key = true ↔ presentKey d key := by
  rw [presentKeyB, presentKey, List.any_eq_true]
  constructor
  · rintro ⟨e, he, hb⟩
    exact ⟨e, he, by simpa using hb⟩
  · rintro ⟨e, he, hk⟩
    exact ⟨e, he, by simpa using hk⟩

theorem presentKey_size_ne (d : dict) (key : Nat) (hwf : dictWF d)
    (hp : presentKey d key) : dictSize d ≠ 0 := by
  obtain ⟨e, he, -⟩ := hp
  rw [allEntries, List.mem_append] at he
  rw [dictSize]
  intro hc
  have h0 : d.ht0.used = 0 := by omega
  have h1 : d.ht1.used = 0 := by omega
  rcases he with he | he
  · rw [htCount_zero_flatten_nil d.ht0 (by rw [← hwf.wf0.cnt]; exact h0)] at he
    exact absurd he (List.not_mem_nil e)
  · rw [htCount_zero_flatten_nil d.ht1 (by rw [← hwf.wf1.cnt]; exact h1)] at he
    exact absurd he (List.not_mem_nil e)

theorem applyOp_type (d : dict) (op : Op) (hwf : dictWF d) :
    (applyOp d op).type = d.type := by
  cases op with
  | expand size => exact (dictExpand_spec d size hwf).2.1
  | add k v => exact (dictAdd_spec d k v hwf).2.1
  | replace k v => exact (dictReplace_spec d k v hwf).2.1
  | delete k => exact (dictDelete_spec d k hwf).2.1
  | find k => exact (dictFind_spec d k hwf).2.1
  | rehash n => exact (dictRehash_spec d n hwf).2.1

theorem foldl_applyOp_type (l : List Op) :
    ∀ d : dict, dictWF d → (l.foldl applyOp d).type = d.type := by
  induction l with
  | nil =>
    intro d _
    rfl
  | cons op rest ih =>
    intro d hwf
    rw [List.foldl_cons, ih (applyOp d op) (applyOp_spec d op hwf),
      applyOp_type d op hwf]

theorem scan_traversal_cover :
    ∀ (opss : List (List Op)) (d : dict) (v key : Nat),
      dictWF d → v < 2 ^ 64 →
      scanCursorOkB d v opss = true →
      presentAllB d v opss key = true →
      rev v ≤ rev (hashKey d.type key) →
      ∃ p ∈ scanStates d v opss, ∃ e ∈ (dictScan p.1 p.2).1, e.key = key := by
  intro opss
  induction opss with
  | nil =>
    intro d v key hwf hv hok hpres hY
    have hz : (dictScan d v).2 = 0 := by simpa [scanCursorOkB] using hok
    have hp : presentKey d key := (presentKeyB_iff d key).mp
      (by simpa [presentAllB] using hpres)
    obtain ⟨e, he, hek⟩ := hp
    obtain ⟨W, w1, w2, w3, w4, w5⟩ := dictScan_call d v hwf hv
      (presentKey_size_ne d key hwf ⟨e, he, hek⟩)
    have hrz : rev (dictScan d v).2 = 0 := by
      rw [hz]
      decide
    rw [hrz] at w3
    have hW : W = 2 ^ 64 := by
      rcases Nat.lt_or_ge W (2 ^ 64) with hWlt | hWge
      · rw [Nat.mod_eq_of_lt hWlt] at w3
        omega
      · exact le_antisymm w2 hWge
    refine ⟨(d, v), by simp [scanStates], e, ?_, hek⟩
    refine w5 e he ?_ ?_
    · rw [hek]
      exact hY
    · rw [hW]
      exact rev_lt _
  | cons ops rest ih =>
    intro d v key hwf hv hok hpres hY
    rw [scanCursorOkB, Bool.and_eq_true, bne_iff_ne] at hok
    rw [presentAllB, Bool.and_eq_true] at hpres
    have hp : presentKey d key := (presentKeyB_iff d key).mp hpres.1
    obtain ⟨e, he, hek⟩ := hp
    obtain ⟨W, w1, w2, w3, w4, w5⟩ := dictScan_call d v hwf hv
      (presentKey_size_ne d key hwf ⟨e, he, hek⟩)
    by_cases hcov : rev (hashKey d.type key) < W
    · refine ⟨(d, v), by simp [scanStates], e, ?_, hek⟩
      refine w5 e he ?_ ?_
      · rw [hek]
        exact hY
      · rw [hek]
        exact hcov
    · have hWlt : W < 2 ^ 64 := by
        rcases Nat.lt_or_ge W (2 ^ 64) with h | h
        · exact h
        · exfalso
          have hW64 : W = 2 ^ 64 := le_antisymm w2 h
          rw [hW64, Nat.mod_self] at w3
          have hc0 : (dictScan d v).2 = 0 := by
            have := rev_rev (dictScan d v).2 w4
            rw [← this, w3]
            decide
          exact hok.1 hc0
      rw [Nat.mod_eq_of_lt hWlt] at w3
      have hwf' : dictWF (ops.foldl applyOp d) := foldl_applyOp_wf ops d hwf
      have htype' : (ops.foldl applyOp d).type = d.type :=
        foldl_applyOp_type ops d hwf
      obtain ⟨p, hpmem, hpcontents⟩ := ih (ops.foldl applyOp d)
        (dictScan d v).2 key hwf' w4 hok.2 hpres.2
        (by rw [htype', w3]; omega)
      refine ⟨p, ?_, hpcontents⟩
      rw [scanStates]
      exact List.mem_cons_of_mem _ hpmem

/-- Claim C2: for every reachable dictionary, starting `dictScan` at
cursor 0 and repeatedly calling it with the returned cursor until the
returned cursor is 0 yields (through the visitor callback) every entry
whose key was present in the dictionary at every call of the traversal at
least once, even when arbitrary operations — including power-of-two grows
and shrinks of the table — happen between calls. -/
theorem claim_C2 (t : dictType) (ops0 : List Op) (opss : List (List Op))
    (key : Nat)
    (hok : scanCursorOkB (runOps t ops0) 0 opss = true)
    (hpres : presentAllB (runOps t ops0) 0 opss key = true) :
    ∃ p ∈ scanStates (runOps t ops0) 0 opss,
      ∃ e ∈ (dictScan p.1 p.2).1, e.key = key := by
  refine scan_traversal_cover opss (runOps t ops0) 0 key (runOps_wf t ops0)
    (by norm_num) hok hpres ?_
  have h0 : rev 0 = 0 := by decide
  rw [h0]
  exact Nat.zero_le _

/-- Closed instance of `claim_C2`: a four-call traversal of the two-entry
size-4 dictionary `exDict2` (cursors 0, 2, 1, 3, then 0) with no
mutations between calls, tracking key 1. -/
theorem claim_C2_witness :
    scanCursorOkB exDict2 0 [[], [], []] = true ∧
    presentAllB exDict2 0 [[], [], []] 1 = true ∧
    ∃ p ∈ scanStates exDict2 0 [[], [], []],
      ∃ e ∈ (dictScan p.1 p.2).1, e.key = 1 :=
  ⟨by decide, by decide,
    claim_C2 exType [Op.add 1 10, Op.add 2 20] [[], [], []] 1
      (by decide) (by decide)⟩

end Redis
